import Mathlib

/-!
Verification of the athenian-api metrics pipeline against its specification.

The development shallowly embeds the Python source:

* `athenian.api.controllers.features.metric.Metric` (confidence scores);
* `athenian.api.hacks.heat_cache` (the per-reposet heater transition);
* `athenian.api.align.queries.metrics` (`_triage_metrics`, `_simplify_requests`);
* `athenian.api.controllers.miners.github.check_run` (the check-run mining
  pipeline: suite starts, PR disambiguation, status-context merging,
  re-run splitting, the final clamp);
* `athenian.api.controllers.features.github.check_run_filter._build_timeline`.

Conventions: timestamps are integers (seconds); pandas `NaT` / SQL `NULL`
becomes `Option`; numpy `datetime64` arithmetic is integer arithmetic;
Python exceptions become `Except`.
-/

namespace Athenian

/-! ## `Metric` and `confidence_score`
    (`athenian/api/controllers/features/metric.py`) -/

/-- Python `int(...)` applied to a rational: truncation toward zero.
`Int.tdiv` is T-division, matching CPython's `int(float)`. -/
def pyInt (q : ℚ) : Int := Int.tdiv q.num q.den

/-- `Metric`: any statistic measurement bundled with the corresponding
confidence interval.  `T` is instantiated with numbers in the metric
calculators; we model the value domain as `ℚ`.  The field `exists` of the
Python dataclass is spelled `exists_` (`exists` is reserved in Lean). -/
structure Metric where
  exists_ : Bool
  value : ℚ
  confidence_min : ℚ
  confidence_max : ℚ
deriving DecidableEq, Repr

/-- `Metric.confidence_score`:
```
if not self.exists: return 0
eps = min(100 * (self.confidence_max - self.confidence_min) / self.value, 100)
return 100 - int(eps)
```
The division raises `ZeroDivisionError` when `self.value == 0`; the error
branch is the `Except.error` constructor. -/
def Metric.confidence_score (m : Metric) : Except String Int :=
  if !m.exists_ then .ok 0
  else if m.value = 0 then .error "ZeroDivisionError"
  else
    let eps : ℚ := min (100 * (m.confidence_max - m.confidence_min) / m.value) 100
    .ok (100 - pyInt eps)

/-! ## The heater's per-reposet state transition
    (`athenian/api/hacks/heat_cache.py`, `main`) -/

/-- The columns of the state-DB `RepositorySet` row that the heater touches. -/
structure RepositorySet where
  id : Nat
  owner_id : Nat
  precomputed : Bool
  updates_count : Nat
deriving DecidableEq, Repr

/-- Whether the mining pipeline for one reposet finished without raising. -/
inductive HeatOutcome where
  | success
  | failure
deriving DecidableEq, Repr

/-- Modelled from the spec: the `RepositorySet` SQLAlchemy model
(`athenian.api.models.state.models`) is not part of the mined sources, only
its callers are; the effect of the heater's
`update(RepositorySet).values({precomputed: True, updates_count: ...})` on
`updates_count` therefore follows the spec's words: "versioned with a
monotonically increasing `updates_count`" and "On first success for a
repository set, `precomputed=true` is set atomically along with
`updates_count` bump". -/
def markPrecomputed (r : RepositorySet) : RepositorySet :=
  { r with precomputed := true, updates_count := r.updates_count + 1 }

/-- The per-reposet tail of the heater main loop (`heat_cache.py`):
an exception anywhere in the per-account pipeline reaches the
`except Exception` handler, which logs and leaves the state row untouched;
on success the `update(RepositorySet)` statement is issued only when
`reposet.precomputed` was false. -/
def heatReposet (r : RepositorySet) (outcome : HeatOutcome) : RepositorySet :=
  match outcome with
  | .failure => r
  | .success => if r.precomputed then r else markPrecomputed r

/-! ## `_triage_metrics`
    (`athenian/api/align/queries/metrics.py`) -/

/-- The payload of `InvalidRequestError` raised through `ResponseError`. -/
structure InvalidRequestError where
  pointer : String
  detail : String
deriving DecidableEq, Repr

/-- The three metric-calculator registries.  They are module-level dicts
populated by decorators in `athenian.api.internal.features.*`; the triage
logic only tests membership, so they are modelled as membership
predicates. -/
structure MetricRegistries where
  pr_metric_calculators : String → Bool
  release_metric_calculators : String → Bool
  jira_metric_calculators : String → Bool

/-- One iteration of the `for metric in metrics` loop of `_triage_metrics`:
append the metric to the first matching family, else to `unidentified`. -/
def triageStep (reg : MetricRegistries)
    (acc : List String × List String × List String × List String)
    (metric : String) : List String × List String × List String × List String :=
  let (pr, rel, jira, unid) := acc
  if reg.pr_metric_calculators metric then (pr ++ [metric], rel, jira, unid)
  else if reg.release_metric_calculators metric then (pr, rel ++ [metric], jira, unid)
  else if reg.jira_metric_calculators metric then (pr, rel, jira ++ [metric], unid)
  else (pr, rel, jira, unid ++ [metric])

/-- `_triage_metrics(metrics)`: split the metric names into the PR, release
and JIRA families; raise `InvalidRequestError(pointer=".metrics")` when any
name is in none of the three registries. -/
def _triage_metrics (reg : MetricRegistries) (metrics : List String) :
    Except InvalidRequestError (List String × List String × List String) :=
  let r := metrics.foldl (triageStep reg) ([], [], [], [])
  if r.2.2.2 ≠ [] then
    .error { pointer := ".metrics",
             detail := "The following metrics are not supported: " ++
               String.intercalate ", " r.2.2.2 }
  else .ok (r.1, r.2.1, r.2.2.1)

/-- A metric name recognized by no registry. -/
def unknownMetric (reg : MetricRegistries) (m : String) : Bool :=
  !reg.pr_metric_calculators m && !reg.release_metric_calculators m &&
    !reg.jira_metric_calculators m

theorem triage_foldl_spec (reg : MetricRegistries) (metrics : List String)
    (pr rel jira unid : List String) :
    metrics.foldl (triageStep reg) (pr, rel, jira, unid) =
      (pr ++ metrics.filter (fun m => reg.pr_metric_calculators m),
       rel ++ metrics.filter
         (fun m => !reg.pr_metric_calculators m && reg.release_metric_calculators m),
       jira ++ metrics.filter
         (fun m => !reg.pr_metric_calculators m && !reg.release_metric_calculators m &&
           reg.jira_metric_calculators m),
       unid ++ metrics.filter (fun m => unknownMetric reg m)) := by
  induction metrics generalizing pr rel jira unid with
  | nil => simp
  | cons m ms ih =>
    simp only [List.foldl_cons, triageStep, List.filter_cons]
    by_cases h1 : reg.pr_metric_calculators m = true
    · simp [h1, ih, unknownMetric]
    · simp only [Bool.not_eq_true] at h1
      by_cases h2 : reg.release_metric_calculators m = true
      · simp [h1, h2, ih, unknownMetric]
      · simp only [Bool.not_eq_true] at h2
        by_cases h3 : reg.jira_metric_calculators m = true
        · simp [h1, h2, h3, ih, unknownMetric]
        · simp only [Bool.not_eq_true] at h3
          simp [h1, h2, h3, ih, unknownMetric]

/-- A registry triple for concrete evaluation: one PR metric and one release
metric are known, nothing else. -/
def sampleRegistries : MetricRegistries where
  pr_metric_calculators := fun m => m == "pr-lead-time"
  release_metric_calculators := fun m => m == "release-count"
  jira_metric_calculators := fun _ => false

/-- C9: `Metric.confidence_score` returns 0 when `exists` is false, and
`100 − min(100, 100·(confidence_max − confidence_min)/value)` — with the
truncation to `int` that the code performs before the subtraction — when
`exists` is true (and the division is defined; `value = 0` is claim C10). -/
theorem C9_confidence_score (m : Metric) :
    (m.exists_ = false → m.confidence_score = .ok 0) ∧
    (m.exists_ = true → m.value ≠ 0 →
      m.confidence_score =
        .ok (100 - pyInt (min 100
          (100 * (m.confidence_max - m.confidence_min) / m.value)))) := by
  constructor
  · intro h
    simp [Metric.confidence_score, h]
  · intro h hv
    rw [min_comm]
    simp [Metric.confidence_score, h, hv]

/-- Witness for C9 at a concrete metric: `exists = true`,
`value = 8`, `confidence_min = 1`, `confidence_max = 3`:
`eps = min(100·2/8, 100) = 25`, score `= 75`. -/
theorem C9_confidence_score_witness :
    (Metric.mk true 8 1 3).confidence_score = .ok 75 ∧
      (100 : Int) - pyInt (min 100 (100 * ((3 : ℚ) - 1) / 8)) = 75 := by
  have h := (C9_confidence_score (Metric.mk true 8 1 3)).2 rfl (by norm_num)
  refine ⟨?_, by norm_num [pyInt]⟩
  rw [h]
  norm_num [pyInt]

/-- C10: `confidence_score` divides by `value` with no zero guard: whenever
`exists = true` and `value = 0` the `ZeroDivisionError` branch is reached,
while under the precondition `value ≠ 0` it is unreachable (the call returns
a value). -/
theorem C10_confidence_score_zero_division (m : Metric) :
    (m.exists_ = true → m.value = 0 →
      m.confidence_score = .error "ZeroDivisionError") ∧
    (m.exists_ = true → m.value ≠ 0 → ∃ k, m.confidence_score = .ok k) := by
  constructor
  · intro h hv
    simp [Metric.confidence_score, h, hv]
  · intro h hv
    refine ⟨100 - pyInt (min (100 * (m.confidence_max - m.confidence_min) / m.value) 100), ?_⟩
    simp [Metric.confidence_score, h, hv]

/-- Witness for C10: at `value = 0` the error branch is reached, at
`value = 8` a result exists. -/
theorem C10_confidence_score_zero_division_witness :
    (Metric.mk true 0 1 3).confidence_score = .error "ZeroDivisionError" ∧
      ∃ k, (Metric.mk true 8 1 3).confidence_score = .ok k := by
  exact ⟨(C10_confidence_score_zero_division (Metric.mk true 0 1 3)).1 rfl rfl,
    (C10_confidence_score_zero_division (Metric.mk true 8 1 3)).2 rfl (by norm_num)⟩

/-- C7: a repository set processed without error whose `precomputed` flag was
false gets `precomputed = true` set together with the `updates_count` bump in
the same (single) state transition; a failed or already-precomputed
repository set keeps `precomputed` and `updates_count` unchanged. -/
theorem C7_heater_first_success (r : RepositorySet) (o : HeatOutcome) :
    (o = .success → r.precomputed = false →
      heatReposet r o =
        { r with precomputed := true, updates_count := r.updates_count + 1 }) ∧
    ((o = .failure ∨ r.precomputed = true) → heatReposet r o = r) := by
  constructor
  · intro ho hp
    subst ho
    simp [heatReposet, hp, markPrecomputed]
  · rintro (ho | hp)
    · subst ho; rfl
    · cases o with
      | failure => rfl
      | success => simp [heatReposet, hp]

/-- Witness for C7: a fresh reposet succeeding for the first time is bumped
from `updates_count = 1` to 2 with `precomputed` raised; the same reposet
already precomputed, or failing, is untouched. -/
theorem C7_heater_first_success_witness :
    heatReposet (RepositorySet.mk 1 7 false 1) .success =
        RepositorySet.mk 1 7 true 2 ∧
      heatReposet (RepositorySet.mk 1 7 true 2) .success =
        RepositorySet.mk 1 7 true 2 ∧
      heatReposet (RepositorySet.mk 1 7 false 1) .failure =
        RepositorySet.mk 1 7 false 1 := by
  refine ⟨(C7_heater_first_success (RepositorySet.mk 1 7 false 1) .success).1 rfl rfl,
    (C7_heater_first_success (RepositorySet.mk 1 7 true 2) .success).2 (Or.inr rfl),
    (C7_heater_first_success (RepositorySet.mk 1 7 false 1) .failure).2 (Or.inl rfl)⟩

/-- C8: `_triage_metrics` fails with a request-invalid error whose JSON
pointer is `.metrics` iff at least one metric name belongs to none of the
three registries; otherwise it partitions the sequence into the three family
batches, each recognized metric routed to exactly one family (the first
matching registry in the order PR, release, JIRA). -/
theorem C8_triage_metrics (reg : MetricRegistries) (metrics : List String) :
    ((∃ e, _triage_metrics reg metrics = .error e ∧ e.pointer = ".metrics") ↔
      ∃ m ∈ metrics, unknownMetric reg m = true) ∧
    (∀ prs rels jiras, _triage_metrics reg metrics = .ok (prs, rels, jiras) →
      ∀ m, (m ∈ prs ↔ m ∈ metrics ∧ reg.pr_metric_calculators m = true) ∧
        (m ∈ rels ↔ m ∈ metrics ∧ reg.pr_metric_calculators m = false ∧
          reg.release_metric_calculators m = true) ∧
        (m ∈ jiras ↔ m ∈ metrics ∧ reg.pr_metric_calculators m = false ∧
          reg.release_metric_calculators m = false ∧
          reg.jira_metric_calculators m = true)) := by
  have hfold := triage_foldl_spec reg metrics [] [] [] []
  simp only [List.nil_append] at hfold
  unfold _triage_metrics
  rw [hfold]
  by_cases hu : metrics.filter (fun m => unknownMetric reg m) = []
  · rw [if_neg (by simp [hu])]
    constructor
    · constructor
      · rintro ⟨e, he, -⟩
        exact absurd he (by simp)
      · rintro ⟨m, hm, hmu⟩
        have hmem : m ∈ metrics.filter (fun m => unknownMetric reg m) :=
          List.mem_filter.2 ⟨hm, hmu⟩
        rw [hu] at hmem
        exact absurd hmem (List.not_mem_nil m)
    · intro prs rels jiras hok m
      rw [Except.ok.injEq, Prod.mk.injEq, Prod.mk.injEq] at hok
      obtain ⟨h1, h2, h3⟩ := hok
      subst h1
      subst h2
      subst h3
      refine ⟨?_, ?_, ?_⟩ <;> simp [List.mem_filter, and_assoc]
  · rw [if_pos (by simp [hu])]
    constructor
    · constructor
      · intro _
        obtain ⟨m, hm⟩ := List.exists_mem_of_ne_nil _ hu
        have hmem := List.mem_filter.1 hm
        exact ⟨m, hmem.1, hmem.2⟩
      · intro _
        exact ⟨_, rfl, rfl⟩
    · intro prs rels jiras hok
      exact absurd hok (by simp)

/-- Witness for C8 at `sampleRegistries`: `["pr-lead-time", "bogus"]` fails
with pointer `.metrics` because "bogus" is unknown; in the successful triage
of `["pr-lead-time", "release-count"]` the release metric lands in the
release batch. -/
theorem C8_triage_metrics_witness :
    (∃ e, _triage_metrics sampleRegistries ["pr-lead-time", "bogus"] = .error e ∧
        e.pointer = ".metrics") ∧
      ("release-count" ∈ (["release-count"] : List String) ↔
        "release-count" ∈ ["pr-lead-time", "release-count"] ∧
          sampleRegistries.pr_metric_calculators "release-count" = false ∧
          sampleRegistries.release_metric_calculators "release-count" = true) := by
  refine ⟨(C8_triage_metrics sampleRegistries ["pr-lead-time", "bogus"]).1.mpr
      ⟨"bogus", by decide, by decide⟩,
    ((C8_triage_metrics sampleRegistries ["pr-lead-time", "release-count"]).2
      ["pr-lead-time"] ["release-count"] [] rfl "release-count").2.1⟩

/-! ## `_simplify_requests`
    (`athenian/api/align/queries/metrics.py`)

Python dicts preserve insertion order; they are embedded as association
lists: `setdefault` appends a fresh key at the end, assignment to an
existing key updates it in place.  Python `set`s become `Finset`s (their
iteration order is unspecified; wherever the code iterates over a set we
iterate in sorted order, which only determines an order the code leaves
arbitrary). -/

/-- `Interval = tuple[datetime, datetime]`. -/
abbrev Interval := Int × Int

/-- `TeamMetricsRequest`: metrics, time intervals and a team-id → members
mapping (insertion-ordered). -/
structure TeamMetricsRequest where
  metrics : List String
  time_intervals : List Interval
  teams : List (Nat × List Nat)
deriving DecidableEq

/-- Dict lookup on an association list. -/
def alistGet [DecidableEq α] (d : List (α × β)) (k : α) : Option β :=
  match d with
  | [] => none
  | p :: rest => if p.1 = k then some p.2 else alistGet rest k

/-- Dict assignment: update the key in place when present, append otherwise
(Python's insertion-order semantics). -/
def alistSet [DecidableEq α] (d : List (α × β)) (k : α) (v : β) : List (α × β) :=
  match d with
  | [] => [(k, v)]
  | p :: rest => if p.1 = k then (k, v) :: rest else p :: alistSet rest k v

/-- The keys of an association list, in order. -/
def alistKeys (d : List (α × β)) : List α := d.map Prod.fst

/-- The inner loop body of `_simplify_requests`'s first pass:
`requests_tree[ivals].setdefault(team_id, set())` followed by
`requests_tree[ivals][team_id].add(m)` for each metric of the request. -/
def addTeamMetrics (inner : List (Nat × Finset String)) (tid : Nat)
    (metrics : List String) : List (Nat × Finset String) :=
  let s := (alistGet inner tid).getD ∅
  alistSet inner tid (metrics.foldl (fun acc m => insert m acc) s)

/-- The `for team_id, team_members in req.teams.items()` body of the first
pass, acting on the whole tree at the key `ivals`. -/
def addRequestTeamStep (ivals : List Interval) (ms : List String)
    (t : List (List Interval × List (Nat × Finset String))) (p : Nat × List Nat) :
    List (List Interval × List (Nat × Finset String)) :=
  alistSet t ivals (addTeamMetrics ((alistGet t ivals).getD []) p.1 ms)

/-- One `for req in requests` iteration of the first pass:
`requests_tree.setdefault(req_time_intervals, {})`, then for each team of the
request update the inner mapping.  (The `teams_members` side table is folded
separately below; the two updates do not interact.) -/
def addRequest (tree : List (List Interval × List (Nat × Finset String)))
    (req : TeamMetricsRequest) :
    List (List Interval × List (Nat × Finset String)) :=
  let tree0 := if (alistGet tree req.time_intervals).isSome then tree
    else tree ++ [(req.time_intervals, [])]
  req.teams.foldl (addRequestTeamStep req.time_intervals req.metrics) tree0

/-- `teams_members[team_id] = team_members` accumulated over one request. -/
def addMembers (tm : List (Nat × List Nat)) (teams : List (Nat × List Nat)) :
    List (Nat × List Nat) :=
  teams.foldl (fun acc p => alistSet acc p.1 p.2) tm

/-- `tuple(sorted(metrics))` of a Python set of strings. -/
def metricsSorted (s : Finset String) : List String := s.sort (· ≤ ·)

/-- One `for team_id, metrics in intervals_tree.items()` step of the second
pass: `simplified_tree[intervals].setdefault(sorted_metrics, set()).add(team_id)`. -/
def groupStep (acc : List (List String × Finset Nat)) (p : Nat × Finset String) :
    List (List String × Finset Nat) :=
  match alistGet acc (metricsSorted p.2) with
  | some tids => alistSet acc (metricsSorted p.2) (insert p.1 tids)
  | none => acc ++ [(metricsSorted p.2, {p.1})]

/-- The second pass of `_simplify_requests`, for one intervals bucket. -/
def groupByMetricSet (inner : List (Nat × Finset String)) :
    List (List String × Finset Nat) :=
  inner.foldl groupStep []

/-- `_simplify_requests(requests)`: regroup the requests by intervals-tuple
and then by sorted-metrics-tuple; the output teams mapping is rebuilt from the
globally accumulated `teams_members`.  (`team_ids_` is a Python set; it is
iterated here in sorted order.) -/
def _simplify_requests (requests : List TeamMetricsRequest) :
    List TeamMetricsRequest :=
  let tree := requests.foldl addRequest []
  let teams_members := requests.foldl (fun tm req => addMembers tm req.teams) []
  tree.foldl
    (fun acc q =>
      acc ++ (groupByMetricSet q.2).map
        (fun g =>
          { metrics := g.1, time_intervals := q.1,
            teams := (g.2.sort (· ≤ ·)).map
              (fun tid => (tid, (alistGet teams_members tid).getD [])) }))
    []

/-- An `(interval, metric, team)` output cell of a request batch: the cells
the collectors write into `TeamMetricsResult`. -/
def cellsOut (reqs : List TeamMetricsRequest) (i : Interval) (m : String)
    (t : Nat) : Prop :=
  ∃ req ∈ reqs, i ∈ req.time_intervals ∧ m ∈ req.metrics ∧
    t ∈ req.teams.map Prod.fst

theorem alistGet_set_self [DecidableEq α] (d : List (α × β)) (k : α) (v : β) :
    alistGet (alistSet d k v) k = some v := by
  induction d with
  | nil => simp [alistGet, alistSet]
  | cons p rest ih =>
    by_cases h : p.1 = k
    · simp [alistGet, alistSet, h]
    · simp [alistGet, alistSet, h, ih]

theorem alistGet_set_ne [DecidableEq α] (d : List (α × β)) (k k' : α) (v : β)
    (h : k' ≠ k) : alistGet (alistSet d k v) k' = alistGet d k' := by
  have hk : ¬(k = k') := fun he => h he.symm
  induction d with
  | nil => simp only [alistSet, alistGet, if_neg hk]
  | cons p rest ih =>
    by_cases hp : p.1 = k
    · have hp' : ¬(p.1 = k') := fun he => hk (hp.symm.trans he)
      simp only [alistSet, if_pos hp, alistGet, if_neg hk, if_neg hp']
    · simp only [alistSet, if_neg hp, alistGet, ih]

theorem alistGet_append (d e : List (α × β)) [DecidableEq α] (k : α) :
    alistGet (d ++ e) k =
      match alistGet d k with
      | some v => some v
      | none => alistGet e k := by
  induction d with
  | nil => simp [alistGet]
  | cons p rest ih =>
    by_cases h : p.1 = k
    · simp [alistGet, h]
    · simp [alistGet, h, ih]

theorem alistKeys_set [DecidableEq α] (d : List (α × β)) (k : α) (v : β) :
    alistKeys (alistSet d k v) =
      if (alistGet d k).isSome then alistKeys d else alistKeys d ++ [k] := by
  simp only [alistKeys]
  induction d with
  | nil => simp [alistGet, alistSet]
  | cons p rest ih =>
    by_cases h : p.1 = k
    · simp [alistGet, alistSet, h]
    · simp only [alistSet, if_neg h, List.map_cons, alistGet, ih]
      by_cases h2 : (alistGet rest k).isSome
      · simp [h2]
      · simp [h2]

theorem alistGet_isSome_iff [DecidableEq α] (d : List (α × β)) (k : α) :
    (alistGet d k).isSome ↔ k ∈ alistKeys d := by
  simp only [alistKeys]
  induction d with
  | nil => simp [alistGet]
  | cons p rest ih =>
    by_cases h : p.1 = k
    · simp [alistGet, h]
    · rw [alistGet, if_neg h, List.map_cons, List.mem_cons, ih]
      constructor
      · exact Or.inr
      · rintro (he | hm)
        · exact absurd he.symm h
        · exact hm

theorem alistKeys_nodup_set [DecidableEq α] (d : List (α × β)) (k : α) (v : β)
    (h : (alistKeys d).Nodup) : (alistKeys (alistSet d k v)).Nodup := by
  rw [alistKeys_set]
  by_cases hs : (alistGet d k).isSome
  · simpa [hs]
  · have hk : k ∉ alistKeys d := fun hm => hs ((alistGet_isSome_iff d k).2 hm)
    simp [hs, List.nodup_append, h, hk]

theorem mem_iff_alistGet [DecidableEq α] (d : List (α × β)) (k : α) (v : β)
    (h : (alistKeys d).Nodup) : (k, v) ∈ d ↔ alistGet d k = some v := by
  induction d with
  | nil => simp [alistGet]
  | cons p rest ih =>
    rw [alistKeys, List.map_cons, List.nodup_cons] at h
    by_cases hp : p.1 = k
    · rw [alistGet, if_pos hp, List.mem_cons]
      constructor
      · rintro (he | hm)
        · rw [(congrArg Prod.snd he).symm]
        · exact absurd (List.mem_map_of_mem Prod.fst hm) (hp ▸ h.1)
      · intro he
        have hv : p.2 = v := by injection he
        exact Or.inl (Prod.ext_iff.2 ⟨hp.symm, hv.symm⟩)
    · rw [alistGet, if_neg hp, List.mem_cons, ih h.2]
      constructor
      · rintro (he | hg)
        · exact absurd (congrArg Prod.fst he).symm hp
        · exact hg
      · exact Or.inr

theorem mem_alistSet [DecidableEq α] (d : List (α × β)) (k : α) (v : β)
    (k' : α) (v' : β) (h : (k', v') ∈ alistSet d k v) :
    (k', v') ∈ d ∨ (k' = k ∧ v' = v) := by
  induction d with
  | nil =>
    rw [alistSet, List.mem_singleton] at h
    exact Or.inr (Prod.ext_iff.1 h)
  | cons p rest ih =>
    by_cases hp : p.1 = k
    · rw [alistSet, if_pos hp, List.mem_cons] at h
      rcases h with h | h
      · exact Or.inr (Prod.ext_iff.1 h)
      · exact Or.inl (List.mem_cons_of_mem p h)
    · rw [alistSet, if_neg hp, List.mem_cons] at h
      rcases h with h | h
      · exact Or.inl (h ▸ List.mem_cons_self p rest)
      · rcases ih h with h2 | h2
        · exact Or.inl (List.mem_cons_of_mem p h2)
        · exact Or.inr h2

theorem mem_foldl_insert (ms : List String) (s : Finset String) (m : String) :
    m ∈ ms.foldl (fun acc x => insert x acc) s ↔ m ∈ s ∨ m ∈ ms := by
  induction ms generalizing s with
  | nil => simp
  | cons x xs ih =>
    rw [List.foldl_cons, ih]
    simp only [Finset.mem_insert, List.mem_cons]
    tauto

theorem alistGet_mem [DecidableEq α] (d : List (α × β)) (k : α) (v : β)
    (h : alistGet d k = some v) : (k, v) ∈ d := by
  induction d with
  | nil => exact absurd h (by simp [alistGet])
  | cons p rest ih =>
    by_cases hp : p.1 = k
    · rw [alistGet, if_pos hp] at h
      have hv : p.2 = v := by injection h
      have he : (k, v) = p := Prod.ext_iff.2 ⟨hp.symm, hv.symm⟩
      rw [he]
      exact List.mem_cons_self p rest
    · rw [alistGet, if_neg hp] at h
      exact List.mem_cons_of_mem p (ih h)

theorem alistGet_addTeamMetrics_self (inner : List (Nat × Finset String))
    (tid : Nat) (ms : List String) :
    alistGet (addTeamMetrics inner tid ms) tid =
      some (ms.foldl (fun acc m => insert m acc) ((alistGet inner tid).getD ∅)) := by
  simp only [addTeamMetrics]
  exact alistGet_set_self ..

theorem alistGet_addTeamMetrics_ne (inner : List (Nat × Finset String))
    (tid t : Nat) (ms : List String) (h : t ≠ tid) :
    alistGet (addTeamMetrics inner tid ms) t = alistGet inner t := by
  simp only [addTeamMetrics]
  exact alistGet_set_ne _ _ _ _ h

theorem teamsFold_get_self (ivals : List Interval) (ms : List String)
    (teams : List (Nat × List Nat)) :
    ∀ (t0 : List (List Interval × List (Nat × Finset String)))
      (inn : List (Nat × Finset String)), alistGet t0 ivals = some inn →
      alistGet (teams.foldl (addRequestTeamStep ivals ms) t0) ivals =
        some (teams.foldl (fun inn p => addTeamMetrics inn p.1 ms) inn) := by
  induction teams with
  | nil => intro t0 inn h; simpa using h
  | cons p ps ih =>
    intro t0 inn h
    rw [List.foldl_cons, List.foldl_cons]
    exact ih _ _ (by simp [addRequestTeamStep, alistGet_set_self, h])

theorem teamsFold_get_ne (ivals iv' : List Interval) (ms : List String)
    (teams : List (Nat × List Nat)) (h : iv' ≠ ivals) :
    ∀ t0, alistGet (teams.foldl (addRequestTeamStep ivals ms) t0) iv' =
      alistGet t0 iv' := by
  induction teams with
  | nil => intro t0; rfl
  | cons p ps ih =>
    intro t0
    rw [List.foldl_cons, ih, addRequestTeamStep, alistGet_set_ne _ _ _ _ h]

theorem addRequest_get_self (tree : List (List Interval × List (Nat × Finset String)))
    (req : TeamMetricsRequest) :
    alistGet (addRequest tree req) req.time_intervals =
      some (req.teams.foldl (fun inn p => addTeamMetrics inn p.1 req.metrics)
        ((alistGet tree req.time_intervals).getD [])) := by
  rw [addRequest]
  rcases hg : alistGet tree req.time_intervals with _ | inner
  · have h0 : alistGet (tree ++ [(req.time_intervals, [])]) req.time_intervals
        = some [] := by
      rw [alistGet_append, hg]
      simp [alistGet]
    simpa using teamsFold_get_self req.time_intervals req.metrics req.teams
      (tree ++ [(req.time_intervals, [])]) [] h0
  · simpa using teamsFold_get_self req.time_intervals req.metrics req.teams
      tree inner hg

theorem addRequest_get_ne (tree : List (List Interval × List (Nat × Finset String)))
    (req : TeamMetricsRequest) (iv' : List Interval)
    (h : iv' ≠ req.time_intervals) :
    alistGet (addRequest tree req) iv' = alistGet tree iv' := by
  rw [addRequest, teamsFold_get_ne _ _ _ _ h]
  by_cases hs : (alistGet tree req.time_intervals).isSome
  · rw [if_pos hs]
  · rw [if_neg hs, alistGet_append]
    rcases hg : alistGet tree iv' with _ | v
    · rw [alistGet, if_neg (fun he => h he.symm), alistGet]
    · rfl

theorem innerFold_mem (ms : List String) (teams : List (Nat × List Nat))
    (t : Nat) (m : String) :
    ∀ inn : List (Nat × Finset String),
      ((∃ s, alistGet (teams.foldl (fun inn p => addTeamMetrics inn p.1 ms) inn) t
          = some s ∧ m ∈ s) ↔
        ((∃ s, alistGet inn t = some s ∧ m ∈ s) ∨
          (t ∈ teams.map Prod.fst ∧ m ∈ ms))) := by
  induction teams with
  | nil => intro inn; simp
  | cons p ps ih =>
    intro inn
    rw [List.foldl_cons, ih]
    have hstep : (∃ s, alistGet (addTeamMetrics inn p.1 ms) t = some s ∧ m ∈ s) ↔
        ((∃ s, alistGet inn t = some s ∧ m ∈ s) ∨ (t = p.1 ∧ m ∈ ms)) := by
      by_cases ht : t = p.1
      · subst ht
        rw [alistGet_addTeamMetrics_self]
        simp only [Option.some.injEq, exists_eq_left']
        rw [mem_foldl_insert]
        rcases hg : alistGet inn p.1 with _ | s
        · simp [hg]
        · simp [hg]
      · rw [alistGet_addTeamMetrics_ne _ _ _ _ ht]
        simp [ht]
    rw [hstep]
    simp only [List.map_cons, List.mem_cons]
    constructor
    · rintro ((h | ⟨h1, h2⟩) | ⟨h1, h2⟩)
      · exact Or.inl h
      · exact Or.inr ⟨Or.inl h1, h2⟩
      · exact Or.inr ⟨Or.inr h1, h2⟩
    · rintro (h | ⟨h1 | h1, h2⟩)
      · exact Or.inl (Or.inl h)
      · exact Or.inl (Or.inr ⟨h1, h2⟩)
      · exact Or.inr ⟨h1, h2⟩

/-- Content of the first pass: metric `m` is recorded for team `t` under the
intervals key `ivals` iff some original request carries all three. -/
theorem treeGet_char (reqs : List TeamMetricsRequest) (ivals : List Interval)
    (t : Nat) (m : String) :
    (∃ inner s, alistGet (reqs.foldl addRequest []) ivals = some inner ∧
        alistGet inner t = some s ∧ m ∈ s) ↔
      ∃ req ∈ reqs, req.time_intervals = ivals ∧ t ∈ req.teams.map Prod.fst ∧
        m ∈ req.metrics := by
  induction reqs using List.reverseRecOn with
  | nil => simp [alistGet]
  | append_singleton rs req ih =>
    rw [List.foldl_append, List.foldl_cons, List.foldl_nil]
    by_cases hiv : ivals = req.time_intervals
    · subst hiv
      rw [addRequest_get_self]
      simp only [Option.some.injEq, exists_and_left, exists_eq_left']
      rw [innerFold_mem]
      have hfirst : (∃ s,
          alistGet ((alistGet (rs.foldl addRequest []) req.time_intervals).getD []) t
            = some s ∧ m ∈ s) ↔
          (∃ inner s,
            alistGet (rs.foldl addRequest []) req.time_intervals = some inner ∧
            alistGet inner t = some s ∧ m ∈ s) := by
        rcases hg : alistGet (rs.foldl addRequest []) req.time_intervals with _ | inner
        · simp [alistGet]
        · simp
      rw [hfirst, ih]
      simp only [List.mem_append, List.mem_singleton]
      constructor
      · rintro (⟨r, hr, h1, h2, h3⟩ | ⟨h1, h2⟩)
        · exact ⟨r, Or.inl hr, h1, h2, h3⟩
        · exact ⟨req, Or.inr rfl, rfl, h1, h2⟩
      · rintro ⟨r, hr | hr, h1, h2, h3⟩
        · exact Or.inl ⟨r, hr, h1, h2, h3⟩
        · subst hr
          exact Or.inr ⟨h2, h3⟩
    · rw [addRequest_get_ne _ _ _ hiv, ih]
      simp only [List.mem_append, List.mem_singleton]
      constructor
      · rintro ⟨r, hr, h1, h2, h3⟩
        exact ⟨r, Or.inl hr, h1, h2, h3⟩
      · rintro ⟨r, hr | hr, h1, h2, h3⟩
        · exact ⟨r, hr, h1, h2, h3⟩
        · subst hr
          exact absurd h1.symm hiv

theorem teamsFold_keys_nodup (ivals : List Interval) (ms : List String)
    (teams : List (Nat × List Nat)) :
    ∀ t0, (alistKeys t0).Nodup →
      (alistKeys (teams.foldl (addRequestTeamStep ivals ms) t0)).Nodup := by
  induction teams with
  | nil => exact fun t0 h => h
  | cons p ps ih =>
    intro t0 h
    exact ih _ (alistKeys_nodup_set _ _ _ h)

theorem addRequest_keys_nodup (tree : List (List Interval × List (Nat × Finset String)))
    (req : TeamMetricsRequest) (h : (alistKeys tree).Nodup) :
    (alistKeys (addRequest tree req)).Nodup := by
  rw [addRequest]
  apply teamsFold_keys_nodup
  by_cases hs : (alistGet tree req.time_intervals).isSome
  · rwa [if_pos hs]
  · rw [if_neg hs]
    have hnm : req.time_intervals ∉ alistKeys tree :=
      fun hm => hs ((alistGet_isSome_iff tree req.time_intervals).2 hm)
    simp only [alistKeys, List.map_append, List.map_singleton] at h hnm ⊢
    simp [List.nodup_append, h, hnm]

theorem teamsFold_inners_nodup (ivals : List Interval) (ms : List String)
    (teams : List (Nat × List Nat)) :
    ∀ t0, (∀ q ∈ t0, (alistKeys q.2).Nodup) →
      ∀ q ∈ teams.foldl (addRequestTeamStep ivals ms) t0,
        (alistKeys q.2).Nodup := by
  induction teams with
  | nil => exact fun t0 h => h
  | cons p ps ih =>
    intro t0 h0
    refine ih _ ?_
    intro q hq
    rcases mem_alistSet _ _ _ q.1 q.2 hq with hm | ⟨hk, hv⟩
    · exact h0 q hm
    · rw [hv]
      rcases hg : alistGet t0 ivals with _ | inner
      · simp [addTeamMetrics, alistSet, alistKeys]
      · simp only [Option.getD_some, addTeamMetrics]
        exact alistKeys_nodup_set _ _ _ (h0 (ivals, inner) (alistGet_mem _ _ _ hg))

theorem foldl_addRequest_inners (reqs : List TeamMetricsRequest) :
    ∀ tree, (∀ q ∈ tree, (alistKeys q.2).Nodup) →
      ∀ q ∈ reqs.foldl addRequest tree, (alistKeys q.2).Nodup := by
  induction reqs with
  | nil => exact fun tree h => h
  | cons r rs ih =>
    intro tree h
    refine ih _ ?_
    rw [addRequest]
    refine teamsFold_inners_nodup _ _ _ _ ?_
    by_cases hs : (alistGet tree r.time_intervals).isSome
    · rwa [if_pos hs]
    · rw [if_neg hs]
      intro q hq
      rcases List.mem_append.1 hq with hm | hm
      · exact h q hm
      · rw [List.mem_singleton] at hm
        rw [hm]
        simp [alistKeys]

theorem foldl_addRequest_keys (reqs : List TeamMetricsRequest) :
    ∀ tree, (alistKeys tree).Nodup →
      (alistKeys (reqs.foldl addRequest tree)).Nodup := by
  induction reqs with
  | nil => exact fun tree h => h
  | cons r rs ih =>
    intro tree h
    exact ih _ (addRequest_keys_nodup tree r h)

theorem groupStep_keys_nodup (acc : List (List String × Finset Nat))
    (p : Nat × Finset String) (h : (alistKeys acc).Nodup) :
    (alistKeys (groupStep acc p)).Nodup := by
  rw [groupStep]
  rcases hg : alistGet acc (metricsSorted p.2) with _ | tids
  · have hnm : metricsSorted p.2 ∉ alistKeys acc := by
      intro hm
      have := (alistGet_isSome_iff acc (metricsSorted p.2)).2 hm
      rw [hg] at this
      exact absurd this (by simp)
    simp only [alistKeys, List.map_append, List.map_singleton] at h hnm ⊢
    simp [List.nodup_append, h, hnm]
  · exact alistKeys_nodup_set _ _ _ h

theorem groupBy_keys_nodup (inner : List (Nat × Finset String)) :
    (alistKeys (groupByMetricSet inner)).Nodup := by
  rw [groupByMetricSet]
  have h : ∀ acc, (alistKeys acc).Nodup →
      (alistKeys (inner.foldl groupStep acc)).Nodup := by
    induction inner with
    | nil => exact fun acc h => h
    | cons p ps ih =>
      intro acc h
      exact ih _ (groupStep_keys_nodup acc p h)
  exact h [] (by simp [alistKeys])

theorem groupStep_char (acc : List (List String × Finset Nat))
    (p : Nat × Finset String) (t : Nat) (m : String) :
    (∃ k tids, alistGet (groupStep acc p) k = some tids ∧ t ∈ tids ∧ m ∈ k) ↔
      ((∃ k tids, alistGet acc k = some tids ∧ t ∈ tids ∧ m ∈ k) ∨
        (t = p.1 ∧ m ∈ metricsSorted p.2)) := by
  rw [groupStep]
  rcases hg : alistGet acc (metricsSorted p.2) with _ | tids0
  · constructor
    · rintro ⟨k, tids, hget, ht, hm⟩
      rw [alistGet_append] at hget
      rcases hga : alistGet acc k with _ | v
      · rw [hga] at hget
        by_cases hk : metricsSorted p.2 = k
        · rw [alistGet, if_pos hk] at hget
          have htids : ({p.1} : Finset Nat) = tids := by injection hget
          rw [← htids] at ht
          exact Or.inr ⟨Finset.mem_singleton.1 ht, hk ▸ hm⟩
        · rw [alistGet, if_neg hk, alistGet] at hget
          exact absurd hget (by simp)
      · rw [hga] at hget
        have hv : v = tids := by injection hget
        exact Or.inl ⟨k, tids, hv ▸ hga, ht, hm⟩
    · rintro (⟨k, tids, hget, ht, hm⟩ | ⟨ht, hm⟩)
      · refine ⟨k, tids, ?_, ht, hm⟩
        rw [alistGet_append, hget]
      · refine ⟨metricsSorted p.2, {p.1}, ?_, ht ▸ Finset.mem_singleton_self t, hm⟩
        rw [alistGet_append, hg, alistGet, if_pos rfl]
  · constructor
    · rintro ⟨k, tids, hget, ht, hm⟩
      by_cases hk : k = metricsSorted p.2
      · subst hk
        rw [alistGet_set_self] at hget
        have htids : insert p.1 tids0 = tids := by injection hget
        rw [← htids] at ht
        rcases Finset.mem_insert.1 ht with ht' | ht'
        · exact Or.inr ⟨ht', hm⟩
        · exact Or.inl ⟨metricsSorted p.2, tids0, hg, ht', hm⟩
      · rw [alistGet_set_ne _ _ _ _ hk] at hget
        exact Or.inl ⟨k, tids, hget, ht, hm⟩
    · rintro (⟨k, tids, hget, ht, hm⟩ | ⟨ht, hm⟩)
      · by_cases hk : k = metricsSorted p.2
        · subst hk
          rw [hg] at hget
          have htids : tids0 = tids := by injection hget
          exact ⟨metricsSorted p.2, insert p.1 tids0, alistGet_set_self ..,
            Finset.mem_insert_of_mem (htids ▸ ht), hm⟩
        · exact ⟨k, tids, by rw [alistGet_set_ne _ _ _ _ hk]; exact hget, ht, hm⟩
      · exact ⟨metricsSorted p.2, insert p.1 tids0, alistGet_set_self ..,
          ht ▸ Finset.mem_insert_self t tids0, hm⟩

theorem groupBy_char (inner : List (Nat × Finset String))
    (hN : (alistKeys inner).Nodup) (t : Nat) (m : String) :
    (∃ k tids, alistGet (groupByMetricSet inner) k = some tids ∧ t ∈ tids ∧
        m ∈ k) ↔
      (∃ s, alistGet inner t = some s ∧ m ∈ metricsSorted s) := by
  induction inner using List.reverseRecOn with
  | nil => simp [groupByMetricSet, alistGet]
  | append_singleton d p ih =>
    have hNd : (alistKeys d).Nodup := by
      simp only [alistKeys, List.map_append, List.map_singleton,
        List.nodup_append] at hN
      exact hN.1
    have hpk : p.1 ∉ alistKeys d := by
      simp only [alistKeys, List.map_append, List.map_singleton,
        List.nodup_append] at hN
      intro hm
      exact hN.2.2 hm (List.mem_singleton_self p.1)
    rw [groupByMetricSet, List.foldl_append, List.foldl_cons, List.foldl_nil]
    rw [show d.foldl groupStep [] = groupByMetricSet d from rfl, groupStep_char,
      ih hNd]
    constructor
    · rintro (⟨s, hget, hm⟩ | ⟨ht, hm⟩)
      · refine ⟨s, ?_, hm⟩
        rw [alistGet_append, hget]
      · refine ⟨p.2, ?_, hm⟩
        rw [alistGet_append]
        have hgd : alistGet d t = none := by
          rcases hgd : alistGet d t with _ | v
          · rfl
          · exact absurd (ht ▸ (alistGet_isSome_iff d t).1 (by simp [hgd])) hpk
        rw [hgd, ht, alistGet, if_pos rfl]
    · rintro ⟨s, hget, hm⟩
      rw [alistGet_append] at hget
      rcases hgd : alistGet d t with _ | v
      · rw [hgd] at hget
        by_cases hk : p.1 = t
        · rw [alistGet, if_pos hk] at hget
          have hs : p.2 = s := by injection hget
          exact Or.inr ⟨hk.symm, hs ▸ hm⟩
        · rw [alistGet, if_neg hk, alistGet] at hget
          exact absurd hget (by simp)
      · rw [hgd] at hget
        have hv : v = s := by injection hget
        exact Or.inl ⟨s, by rw [hv], hm⟩

theorem mem_foldl_append {γ δ : Type _} (f : γ → List δ) (l : List γ) (x : δ) :
    ∀ init : List δ,
      (x ∈ l.foldl (fun acc q => acc ++ f q) init ↔
        x ∈ init ∨ ∃ q ∈ l, x ∈ f q) := by
  induction l with
  | nil => intro init; simp
  | cons q qs ih =>
    intro init
    rw [List.foldl_cons, ih]
    simp only [List.mem_append, List.mem_cons]
    constructor
    · rintro ((h | h) | ⟨r, hr, hx⟩)
      · exact Or.inl h
      · exact Or.inr ⟨q, Or.inl rfl, h⟩
      · exact Or.inr ⟨r, Or.inr hr, hx⟩
    · rintro (h | ⟨r, rfl | hr, hx⟩)
      · exact Or.inl (Or.inl h)
      · exact Or.inl (Or.inr hx)
      · exact Or.inr ⟨r, hr, hx⟩

/-- C1: planner request simplification is lossless: the set of
`(interval, metric, team)` output cells produced from the requests returned
by `_simplify_requests` equals the set produced from the original requests
(simplification only regroups by intervals-tuple and then by
sorted-metrics-tuple). -/
theorem C1_simplify_requests_lossless (reqs : List TeamMetricsRequest)
    (i : Interval) (m : String) (t : Nat) :
    cellsOut (_simplify_requests reqs) i m t ↔ cellsOut reqs i m t := by
  have hkeys : (alistKeys (reqs.foldl addRequest [])).Nodup :=
    foldl_addRequest_keys reqs [] (by simp [alistKeys])
  have hinners : ∀ q ∈ reqs.foldl addRequest [], (alistKeys q.2).Nodup :=
    foldl_addRequest_inners reqs []
      (fun q hq => absurd hq (List.not_mem_nil q))
  constructor
  · rintro ⟨req', hreq', hi, hm, ht⟩
    simp only [_simplify_requests] at hreq'
    rw [mem_foldl_append] at hreq'
    rcases hreq' with h | ⟨q, hq, hmem⟩
    · exact absurd h (List.not_mem_nil req')
    rw [List.mem_map] at hmem
    obtain ⟨g, hg, rfl⟩ := hmem
    simp only [List.mem_map] at ht
    obtain ⟨p, ⟨tid, htid, rfl⟩, hpt⟩ := ht
    obtain rfl : t = tid := hpt.symm
    have ht3 : t ∈ g.2 := (Finset.mem_sort _).1 htid
    have hqget : alistGet (reqs.foldl addRequest []) q.1 = some q.2 :=
      (mem_iff_alistGet _ _ _ hkeys).1 hq
    have hgget : alistGet (groupByMetricSet q.2) g.1 = some g.2 :=
      (mem_iff_alistGet _ _ _ (groupBy_keys_nodup q.2)).1 hg
    obtain ⟨s, hsget, hms⟩ :=
      (groupBy_char q.2 (hinners q hq) t m).1 ⟨g.1, g.2, hgget, ht3, hm⟩
    obtain ⟨req, hreq, hiv, hteam, hmet⟩ :=
      (treeGet_char reqs q.1 t m).1 ⟨q.2, s, hqget, hsget,
        by rwa [metricsSorted, Finset.mem_sort] at hms⟩
    exact ⟨req, hreq, hiv ▸ hi, hmet, hteam⟩
  · rintro ⟨req, hreq, hi, hm, ht⟩
    obtain ⟨inner, s, hqget, hsget, hms⟩ :=
      (treeGet_char reqs req.time_intervals t m).2 ⟨req, hreq, rfl, ht, hm⟩
    have hinn : (alistKeys inner).Nodup :=
      hinners (req.time_intervals, inner) (alistGet_mem _ _ _ hqget)
    obtain ⟨k, tids, hgget, htids, hmk⟩ :=
      (groupBy_char inner hinn t m).2
        ⟨s, hsget, by rwa [metricsSorted, Finset.mem_sort]⟩
    refine ⟨⟨k, req.time_intervals, (tids.sort (· ≤ ·)).map
        (fun tid => (tid,
          (alistGet (reqs.foldl (fun tm r => addMembers tm r.teams) []) tid).getD []))⟩,
      ?_, hi, hmk, ?_⟩
    · simp only [_simplify_requests]
      rw [mem_foldl_append]
      right
      refine ⟨(req.time_intervals, inner), alistGet_mem _ _ _ hqget, ?_⟩
      rw [List.mem_map]
      exact ⟨(k, tids),
        (mem_iff_alistGet _ _ _ (groupBy_keys_nodup inner)).2 hgget, rfl⟩
    · simp only [List.mem_map]
      exact ⟨(t, (alistGet (reqs.foldl (fun tm r => addMembers tm r.teams) []) t).getD []),
        ⟨t, (Finset.mem_sort _).2 htids, rfl⟩, rfl⟩

/-! ## The check-run mining pipeline
    (`athenian/api/controllers/miners/github/check_run.py`)

One DataFrame row per `(check run, attributed PR)` pair, as produced by the
SQL fetch.  Node ids and URLs are the metadata strings; timestamps are
seconds.  `NULL`/`NaT` becomes `Option`.  The `pull_request_started/closed/
merged` join columns are not carried: the lifetime test reads `pr_lifetimes`
(`prInfo`) directly, which is the same data keyed by PR node id
(`closed_at` is `fillna(now)`-ed at the use site). -/

/-- One row of the check-run table.  `check_suite_started` is the column
added by `_calculate_check_suite_started`; it is meaningless (0) until that
step has run. -/
structure CRow where
  check_run_node_id : String
  check_suite_node_id : String
  pull_request_node_id : Option String
  author_user : Option String
  url : String
  name : String
  status : String
  conclusion : String
  check_suite_conclusion : String
  started_at : Int
  completed_at : Option Int
  check_suite_started : Int
deriving DecidableEq, Repr

/-- A `node_pull_requests` row of `pr_lifetimes`: `closed_at` is `NULL` for
open PRs (the miner substitutes `datetime.now()`). -/
structure PRInfo where
  author : Option String
  created_at : Int
  closed_at : Option Int
deriving DecidableEq, Repr

/-- `_calculate_check_suite_started`: per-suite minimum of `started_at`
(`groupby(check_suite_node_id).transform("min")`). -/
def _calculate_check_suite_started (rows : List CRow) : List CRow :=
  rows.map (fun r =>
    { r with check_suite_started :=
        ((rows.filter
            (fun q => q.check_suite_node_id == r.check_suite_node_id)).map
          (fun q => q.started_at)).foldl min r.started_at })

/-- The `check_suite_started.between(pr_started, pr_closed + 1h)` test of the
lifetime pass; rows with no PR (or a PR missing from `pr_lifetimes`) compare
`NaT`s, which is false. -/
def lifetimeOk (now : Int) (prInfo : String → Option PRInfo) (r : CRow) :
    Bool :=
  match r.pull_request_node_id with
  | none => false
  | some p =>
    match prInfo p with
    | none => false
    | some info =>
      decide (info.created_at ≤ r.check_suite_started) &&
        decide (r.check_suite_started ≤ info.closed_at.getD now + 3600)

/-- Pass A: `df.loc[check_runs_outside_pr_lifetime_indexes,
pull_request_node_id] = None`. -/
def dropOutsideLifetime (now : Int) (prInfo : String → Option PRInfo)
    (rows : List CRow) : List CRow :=
  rows.map (fun r =>
    if lifetimeOk now prInfo r then r
    else { r with pull_request_node_id := none })

/-- `df.drop_duplicates([check_run_node_id, pull_request_node_id])`:
keep the first row of each pair. -/
def dropDupPairsGo (seen : List (String × Option String)) :
    List CRow → List CRow
  | [] => []
  | r :: rest =>
    if (r.check_run_node_id, r.pull_request_node_id) ∈ seen then
      dropDupPairsGo seen rest
    else r :: dropDupPairsGo ((r.check_run_node_id, r.pull_request_node_id) :: seen) rest

def dropDuplicatePairs (rows : List CRow) : List CRow := dropDupPairsGo [] rows

/-- The rows of one check run node id (one numpy group). -/
def runRows (rows : List CRow) (rid : String) : List CRow :=
  rows.filter (fun r => r.check_run_node_id == rid)

/-- `len(ambiguous_unique_check_run_indexes) > 0`: some check run node id
occurs on more than one row. -/
def hasAmbiguity (rows : List CRow) : Bool :=
  rows.any (fun r => 2 ≤ (runRows rows r.check_run_node_id).length)

/-- The `created_at` sort key of `ambiguous_df.sort_values(created_at)`:
rows whose PR is missing carry `NaN`, which pandas sorts last. -/
def prCreatedKey (prInfo : String → Option PRInfo) (r : CRow) : WithTop Int :=
  match r.pull_request_node_id with
  | none => ⊤
  | some p =>
    match prInfo p with
    | none => ⊤
    | some info => (info.created_at : WithTop Int)

/-- `ambiguous_df.sort_values(created_at)` restricted to one run's group
(pandas `groupby` preserves the intra-group order of the sorted frame). -/
def sortByCreated (prInfo : String → Option PRInfo) (l : List CRow) :
    List CRow :=
  l.insertionSort (fun a b => prCreatedKey prInfo a ≤ prCreatedKey prInfo b)

/-- Heuristic step 1: `pr_author == commit_author`; `NaN` on either side
compares false. -/
def authorMatch (prInfo : String → Option PRInfo) (r : CRow) : Bool :=
  match r.pull_request_node_id with
  | none => false
  | some p =>
    match prInfo p with
    | none => false
    | some info =>
      match info.author, r.author_user with
      | some a, some b => a == b
      | _, _ => false

/-- The `pr_commit_counts` join.  It is modelled as a total function: the SQL
`count(*) group by pull_request` row exists for every PR that has commits,
and a PR reachable from a check-run commit has at least one commit. -/
def commitCountOf (cc : String → Nat) (r : CRow) : Nat :=
  match r.pull_request_node_id with
  | some p => cc p
  | none => 0

/-- `groupby(check_run_node_id)["count"].idxmin()`: the first row of the
(sorted) group attaining the minimal count. -/
def argminFirst (f : α → Nat) : List α → Option α
  | [] => none
  | x :: xs =>
    match argminFirst f xs with
    | none => some x
    | some y => if f x ≤ f y then some x else some y

/-- Heuristic steps 1+2 for one ambiguous run: sort its rows by PR
`created_at`, keep the author-matching ones, take the first with the fewest
commits. -/
def chosenFor (prInfo : String → Option PRInfo) (cc : String → Nat)
    (rows2 : List CRow) (rid : String) : Option CRow :=
  argminFirst (commitCountOf cc)
    ((sortByCreated prInfo (runRows rows2 rid)).filter
      (fun r => authorMatch prInfo r))

/-- `df.loc[reset_indexes, pull_request_node_id] = None`: every row of an
ambiguous run other than the `idxmin` winner loses its attribution. -/
def applyHeuristics (prInfo : String → Option PRInfo) (cc : String → Nat)
    (rows2 : List CRow) : List CRow :=
  rows2.map (fun r =>
    if 2 ≤ (runRows rows2 r.check_run_node_id).length then
      match chosenFor prInfo cc rows2 r.check_run_node_id with
      | some c => if r = c then r else { r with pull_request_node_id := none }
      | none => { r with pull_request_node_id := none }
    else r)

/-- The final dedup key: the PR node id bytes, with `None` replaced by
`b"\x7b"`, which sorts after every alphanumeric id
(`pr_node_ids[pr_node_ids == b"None"] = b"\x7b"`). -/
def finalKey : Option String → String
  | some p => p
  | none => "\x7b"

/-- The `np.char.add` / `argsort` / `unique(return_index=True)` block:
for every `check_run_node_id` keep the first row holding the smallest
`finalKey` (the joint sort concatenates the run id with the key, so within a
run the order is the key order; `np.unique` then takes the first encounter
per run).  The source also reorders the surviving rows by run id; the
original relative order is kept here — every property stated below is
order-insensitive. -/
def keepFirstMinKey (rows : List CRow) : List CRow :=
  (rows.enum.filter (fun iq =>
    decide (∀ jq ∈ rows.enum,
      jq.2.check_run_node_id = iq.2.check_run_node_id →
        (finalKey iq.2.pull_request_node_id ≤ finalKey jq.2.pull_request_node_id ∧
          (jq.1 < iq.1 →
            finalKey iq.2.pull_request_node_id < finalKey jq.2.pull_request_node_id))))).map
    (fun iq => iq.2)

/-- The PR-disambiguation portion of `mine_check_runs`: the lifetime pass and
the pair dedup always run; the heuristics plus final dedup run only when the
original table had a duplicated run id (first `groupby`) and the deduped
table still has one (second lap). -/
def mineDisambiguate (now : Int) (prInfo : String → Option PRInfo)
    (cc : String → Nat) (rows : List CRow) : List CRow :=
  let rows1 := dropOutsideLifetime now prInfo rows
  let rows2 := dropDuplicatePairs rows1
  if hasAmbiguity rows && hasAmbiguity rows2 then
    keepFirstMinKey (applyHeuristics prInfo cc rows2)
  else rows2

/-- A status-context row with no completion record. -/
def noFinish (r : CRow) : Bool := r.completed_at.isNone

/-- The merge seed: `np.char.add(check_suite_node_id, url)` — a string
concatenation, not a pair. -/
def seedOf (r : CRow) : String := r.check_suite_node_id ++ r.url

/-- `np.min(..., where=mask, initial=d)`. -/
def listMinD (l : List Int) (d : Int) : Int := l.foldl min d

/-- `np.max(..., where=mask, initial=d)`. -/
def listMaxD (l : List Int) (d : Int) : Int := l.foldl max d

/-- `vector.max()` (defined for the empty vector as 0; numpy raises there,
and every use below is on a nonempty vector). -/
def headMax (l : List Int) : Int :=
  match l with
  | [] => 0
  | x :: xs => listMaxD xs x

/-- `vector.min()`. -/
def headMin (l : List Int) : Int :=
  match l with
  | [] => 0
  | x :: xs => listMinD xs x

/-- The index of the first no-finish row carrying a seed
(`np.unique(..., return_index=True)` first encounters). -/
def firstNoFinishIdx (rows : List CRow) (seed : String) : Option Nat :=
  (rows.enum.find? (fun jq => noFinish jq.2 && (seedOf jq.2 == seed))).map
    (fun jq => jq.1)

/-- What `_merge_status_contexts` does with the row at one position: rows
with a completion, and no-finish rows in a seed group of size one, pass
through; in a group of two or more the first no-finish row receives
`started_at = min(group starts ∪ group suite starts)` (the `initial` of the
numpy reductions being the max of all no-finish starts), `completed_at =
max(group starts)` and the status of the first row attaining that max; the
remaining group rows are dropped. -/
def mergeRowStep (rows : List CRow) (iq : Nat × CRow) : Option CRow :=
  if noFinish iq.2 then
    let nf := rows.filter (fun r => noFinish r)
    let g := nf.filter (fun q => seedOf q == seedOf iq.2)
    if 2 ≤ g.length then
      if firstNoFinishIdx rows (seedOf iq.2) == some iq.1 then
        let gmax := headMax (nf.map (fun r => r.started_at))
        let gmin := headMin (nf.map (fun r => r.started_at))
        let mins := min (listMinD (g.map (fun q => q.started_at)) gmax)
          (listMinD (g.map (fun q => q.check_suite_started)) gmax)
        let maxs := listMaxD (g.map (fun q => q.started_at)) gmin
        let st := ((g.find? (fun q => q.started_at == maxs)).map
          (fun q => q.status)).getD iq.2.status
        some { iq.2 with started_at := mins, completed_at := some maxs, status := st }
      else none
    else some iq.2
  else some iq.2

/-- `_merge_status_contexts`. -/
def _merge_status_contexts (rows : List CRow) : List CRow :=
  rows.enum.filterMap (mergeRowStep rows)

/-- `df.sort_values(started_at)` at the head of
`_split_duplicate_check_runs`. -/
def sortByStarted (rows : List CRow) : List CRow :=
  rows.insertionSort (fun a b => a.started_at ≤ b.started_at)

/-- `groupby([check_suite_node_id, name]).cumcount()` of the sorted table:
how many earlier rows share the suite and name. -/
def dupIndexAt (s : List CRow) (i : Nat) (r : CRow) : Nat :=
  ((s.take i).filter (fun q =>
    q.check_suite_node_id == r.check_suite_node_id && q.name == r.name)).length

/-- Little-endian base-10 digits, by fuel-bounded recursion so that the
kernel can evaluate it (shown equal to `Nat.digits 10` below). -/
def decDigitsRev : Nat → Nat → List Nat
  | 0, _ => []
  | fuel + 1, n => if n = 0 then [] else n % 10 :: decDigitsRev fuel (n / 10)

/-- Python `str` of a nonnegative int: the base-10 digits, most significant
first. -/
def decimalStr (n : Nat) : String :=
  if n = 0 then "0"
  else ((decDigitsRev (n + 1) n).reverse.map Nat.digitChar).asString

/-- The enumeration half of `_split_duplicate_check_runs`: append the decimal
cumcount to the suite id.  (The `astype("S<len(str(max))>")` width never
truncates: every index has at most as many digits as the maximum.) -/
def splitEnumerate (rows : List CRow) : List CRow :=
  let s := sortByStarted rows
  s.enum.map (fun iq =>
    { iq.2 with check_suite_node_id :=
        iq.2.check_suite_node_id ++ decimalStr (dupIndexAt s iq.1 iq.2) })

/-- `check_suite_conclusion in ("SUCCESS", "NEUTRAL")` — the `successful`
mask, computed once before the override loop. -/
def successfulSuite (r : CRow) : Bool :=
  r.check_suite_conclusion == "SUCCESS" || r.check_suite_conclusion == "NEUTRAL"

def suiteHasConclusion (rows : List CRow) (sid c : String) : Bool :=
  rows.any (fun r => r.check_suite_node_id == sid && r.conclusion == c)

/-- The net effect of the `for c in ("TIMED_OUT", "CANCELLED", "FAILURE")`
loop on one row: the masks all use the frozen `successful` vector and later
assignments win, so the last listed conclusion present in the suite is the
one written. -/
def overrideFor (rows : List CRow) (r : CRow) : Option String :=
  if suiteHasConclusion rows r.check_suite_node_id "FAILURE" then some "FAILURE"
  else if suiteHasConclusion rows r.check_suite_node_id "CANCELLED" then
    some "CANCELLED"
  else if suiteHasConclusion rows r.check_suite_node_id "TIMED_OUT" then
    some "TIMED_OUT"
  else none

/-- One row under the override loop. -/
def overrideRow (rows : List CRow) (r : CRow) : CRow :=
  if successfulSuite r then
    match overrideFor rows r with
    | some c => { r with check_suite_conclusion := c }
    | none => r
  else r

/-- The override loop of `_split_duplicate_check_runs`, including the
conditional `_calculate_check_suite_started` refresh when anything
changed. -/
def overrideSuiteConclusion (rows : List CRow) : List CRow :=
  if rows.any (fun r => successfulSuite r && (overrideFor rows r).isSome) then
    _calculate_check_suite_started (rows.map (overrideRow rows))
  else rows.map (overrideRow rows)

/-- `_split_duplicate_check_runs`: re-order by start time, split duplicate
`(suite, name)` runs into artificial suites, then override successful suite
conclusions. -/
def _split_duplicate_check_runs (rows : List CRow) : List CRow :=
  overrideSuiteConclusion (splitEnumerate rows)

/-- `np.maximum` over `datetime64`: `NaT` propagates (numpy >= 1.18; the
source pins 1.20), so a missing `completed_at` stays missing and a present
one is clamped up to `started_at`. -/
def pyMaximumNaT (completed : Option Int) (started : Int) : Option Int :=
  match completed with
  | none => none
  | some c => some (max c started)

/-- The post-fetch portion of `mine_check_runs` as a table pipeline: suite
starts, PR disambiguation, status-context merge, re-run split, the NEUTRAL
completion reset and the final clamp.  (The label filter is identity for an
empty label filter and is omitted; the PR timestamp-column sync touches only
the join columns, which are not carried.) -/
def mineCheckRunsTable (now : Int) (prInfo : String → Option PRInfo)
    (cc : String → Nat) (rows : List CRow) : List CRow :=
  let rows0 := _calculate_check_suite_started rows
  let rows1 := mineDisambiguate now prInfo cc rows0
  let rows2 := _merge_status_contexts rows1
  let rows3 := _split_duplicate_check_runs rows2
  let rows4 := rows3.map (fun r =>
    if r.conclusion == "NEUTRAL" then { r with completed_at := none } else r)
  rows4.map (fun r =>
    { r with completed_at := pyMaximumNaT r.completed_at r.started_at })

/-! ### Lemmas about the re-run split (C4) -/

instance : IsTotal CRow (fun a b => a.started_at ≤ b.started_at) :=
  ⟨fun a b => le_total a.started_at b.started_at⟩

instance : IsTrans CRow (fun a b => a.started_at ≤ b.started_at) :=
  ⟨fun _ _ _ => le_trans⟩

theorem digitChar_inj : ∀ x, x < 10 → ∀ y, y < 10 →
    Nat.digitChar x = Nat.digitChar y → x = y := by decide

theorem map_digitChar_inj : ∀ l1 l2 : List Nat, (∀ x ∈ l1, x < 10) →
    (∀ x ∈ l2, x < 10) →
    l1.map Nat.digitChar = l2.map Nat.digitChar → l1 = l2 := by
  intro l1
  induction l1 with
  | nil =>
    intro l2 _ _ h
    cases l2 with
    | nil => rfl
    | cons y ys => exact absurd h (by simp)
  | cons x xs ih =>
    intro l2 h1 h2 h
    cases l2 with
    | nil => exact absurd h (by simp)
    | cons y ys =>
      simp only [List.map_cons, List.cons.injEq] at h
      have hx : x = y := digitChar_inj x (h1 x (List.mem_cons_self x xs)) y
        (h2 y (List.mem_cons_self y ys)) h.1
      rw [hx, ih ys (fun z hz => h1 z (List.mem_cons_of_mem x hz))
        (fun z hz => h2 z (List.mem_cons_of_mem y hz)) h.2]

theorem decDigitsRev_eq (fuel : Nat) :
    ∀ n, n < fuel → decDigitsRev fuel n = Nat.digits 10 n := by
  induction fuel with
  | zero => intro n h; exact absurd h (by omega)
  | succ f ih =>
    intro n h
    rw [decDigitsRev]
    by_cases h0 : n = 0
    · simp [h0]
    · have hdiv : n / 10 < f := by
        have h1 : n / 10 < n := Nat.div_lt_self (Nat.pos_of_ne_zero h0) (by norm_num)
        omega
      rw [if_neg h0, ih (n / 10) hdiv,
        Nat.digits_def' (by norm_num : (1 : Nat) < 10) (Nat.pos_of_ne_zero h0)]

theorem decimalStr_data (n : Nat) (h : n ≠ 0) :
    (decimalStr n).data = (Nat.digits 10 n).reverse.map Nat.digitChar := by
  rw [decimalStr, if_neg h, decDigitsRev_eq (n + 1) n (by omega)]
  rfl

theorem decimalStr_inj (a b : Nat) (h : decimalStr a = decimalStr b) : a = b := by
  by_cases ha : a = 0 <;> by_cases hb : b = 0
  · rw [ha, hb]
  · exfalso
    have hd := congrArg String.data h
    rw [ha, decimalStr_data b hb] at hd
    have h1 : ([0] : List Nat).map Nat.digitChar =
        (Nat.digits 10 b).reverse.map Nat.digitChar := by
      calc ([0] : List Nat).map Nat.digitChar = ['0'] := rfl
      _ = (decimalStr 0).data := rfl
      _ = _ := hd
    have h2 : ([0] : List Nat) = (Nat.digits 10 b).reverse :=
      map_digitChar_inj _ _ (by simp)
        (fun z hz => Nat.digits_lt_base (by norm_num) (List.mem_reverse.1 hz)) h1
    have hdig : Nat.digits 10 b = [0] := by
      have h3 := congrArg List.reverse h2
      simpa using h3.symm
    have h4 := Nat.ofDigits_digits 10 b
    rw [hdig] at h4
    simp [Nat.ofDigits] at h4
    exact hb h4.symm
  · exfalso
    have hd := congrArg String.data h
    rw [hb, decimalStr_data a ha] at hd
    have h1 : (Nat.digits 10 a).reverse.map Nat.digitChar =
        ([0] : List Nat).map Nat.digitChar := by
      calc (Nat.digits 10 a).reverse.map Nat.digitChar = (decimalStr 0).data := hd
      _ = ['0'] := rfl
      _ = ([0] : List Nat).map Nat.digitChar := rfl
    have h2 : (Nat.digits 10 a).reverse = ([0] : List Nat) :=
      map_digitChar_inj _ _
        (fun z hz => Nat.digits_lt_base (by norm_num) (List.mem_reverse.1 hz))
        (by simp) h1
    have hdig : Nat.digits 10 a = [0] := by
      have h3 := congrArg List.reverse h2
      simpa using h3
    have h4 := Nat.ofDigits_digits 10 a
    rw [hdig] at h4
    simp [Nat.ofDigits] at h4
    exact ha h4.symm
  · have hd := congrArg String.data h
    rw [decimalStr_data a ha, decimalStr_data b hb] at hd
    have hrev : (Nat.digits 10 a).reverse = (Nat.digits 10 b).reverse :=
      map_digitChar_inj _ _
        (fun z hz => Nat.digits_lt_base (by norm_num) (List.mem_reverse.1 hz))
        (fun z hz => Nat.digits_lt_base (by norm_num) (List.mem_reverse.1 hz)) hd
    have hdig : Nat.digits 10 a = Nat.digits 10 b := by
      have h3 := congrArg List.reverse hrev
      simpa using h3
    calc a = Nat.ofDigits 10 (Nat.digits 10 a) := (Nat.ofDigits_digits 10 a).symm
    _ = Nat.ofDigits 10 (Nat.digits 10 b) := by rw [hdig]
    _ = b := Nat.ofDigits_digits 10 b

/-- Lifting an index of a filtered list back to the base list: the element of
`s.filter p` at position `i` sits at some position `j` of `s` with exactly
`i` earlier matches. -/
theorem exists_take_filter_len (p : α → Bool) :
    ∀ (s : List α) (i : Nat), i < (s.filter p).length →
      ∃ j, j < s.length ∧ s.get? j = (s.filter p).get? i ∧
        ((s.take j).filter p).length = i := by
  intro s
  induction s with
  | nil => intro i hi; exact absurd hi (by simp)
  | cons x xs ih =>
    intro i hi
    by_cases hp : p x
    · rw [List.filter_cons_of_pos hp] at hi ⊢
      cases i with
      | zero => exact ⟨0, by simp, by simp, by simp⟩
      | succ i =>
        obtain ⟨j, hj, he, hc⟩ := ih i (by simpa using hi)
        refine ⟨j + 1, by simpa using hj, by simpa using he, ?_⟩
        rw [List.take_succ_cons, List.filter_cons_of_pos hp, List.length_cons, hc]
    · rw [List.filter_cons_of_neg hp] at hi ⊢
      obtain ⟨j, hj, he, hc⟩ := ih i hi
      refine ⟨j + 1, by simpa using hj, by simpa using he, ?_⟩
      rw [List.take_succ_cons, List.filter_cons_of_neg hp, hc]

/-- Projection of a row to the fields the re-run split is specified by. -/
def splitProj (r : CRow) : String × String × String × Int :=
  (r.check_run_node_id, r.check_suite_node_id, r.name, r.started_at)

/-- The `(suite, name)` group of the chronologically sorted table. -/
def splitGroup (rows : List CRow) (S n : String) : List CRow :=
  (sortByStarted rows).filter
    (fun r => r.check_suite_node_id == S && r.name == n)

theorem calc_proj (l : List CRow) :
    (_calculate_check_suite_started l).map splitProj = l.map splitProj := by
  rw [_calculate_check_suite_started, List.map_map]
  rfl

theorem overrideRow_proj (rows : List CRow) (r : CRow) :
    splitProj (overrideRow rows r) = splitProj r := by
  rw [overrideRow]
  by_cases h : successfulSuite r
  · rw [if_pos h]
    rcases h2 : overrideFor rows r with _ | c
    · rfl
    · rfl
  · rw [if_neg h]

theorem override_proj (l : List CRow) :
    (overrideSuiteConclusion l).map splitProj = l.map splitProj := by
  rw [overrideSuiteConclusion]
  by_cases hc : l.any (fun r => successfulSuite r && (overrideFor l r).isSome) = true
  · rw [if_pos hc, calc_proj, List.map_map]
    exact List.map_congr_left (fun r _ => overrideRow_proj l r)
  · rw [if_neg hc, List.map_map]
    exact List.map_congr_left (fun r _ => overrideRow_proj l r)

theorem mem_split_proj (rows : List CRow) (v : String × String × String × Int) :
    (∃ r' ∈ _split_duplicate_check_runs rows, splitProj r' = v) ↔
      ∃ r' ∈ splitEnumerate rows, splitProj r' = v := by
  rw [← List.mem_map, ← List.mem_map, _split_duplicate_check_runs, override_proj]

/-- C4: re-run split.  For every suite `S` and name `n` with several runs,
the `i`-th run of the group in chronological `started_at` order is emitted
with synthetic suite id `S ++ str(i)` (the earliest gets index 0); distinct
indexes yield distinct synthetic ids; the group enumeration is monotone in
`started_at`. -/
theorem C4_split_duplicate_check_runs (rows : List CRow) (S n : String)
    (h2 : 2 ≤ (splitGroup rows S n).length) :
    (∀ i, (hi : i < (splitGroup rows S n).length) →
      ∃ r' ∈ _split_duplicate_check_runs rows,
        splitProj r' =
          (((splitGroup rows S n).get ⟨i, hi⟩).check_run_node_id,
            S ++ decimalStr i, n,
            ((splitGroup rows S n).get ⟨i, hi⟩).started_at)) ∧
    (∀ i j : Nat, i ≠ j → S ++ decimalStr i ≠ S ++ decimalStr j) ∧
    (∀ i j, (hi : i < (splitGroup rows S n).length) →
      (hj : j < (splitGroup rows S n).length) → i ≤ j →
      ((splitGroup rows S n).get ⟨i, hi⟩).started_at ≤
        ((splitGroup rows S n).get ⟨j, hj⟩).started_at) := by
  refine ⟨?_, ?_, ?_⟩
  · intro i hi
    have hi2 : i < ((sortByStarted rows).filter
        (fun r => r.check_suite_node_id == S && r.name == n)).length := hi
    obtain ⟨j, hj, he, hc⟩ := exists_take_filter_len
      (fun r => r.check_suite_node_id == S && r.name == n)
      (sortByStarted rows) i hi2
    have hgi : (splitGroup rows S n).get ⟨i, hi⟩ ∈ (splitGroup rows S n) :=
      List.get_mem _ i hi
    have hp := (List.mem_filter.1 hgi).2
    have hSn : ((splitGroup rows S n).get ⟨i, hi⟩).check_suite_node_id = S ∧
        ((splitGroup rows S n).get ⟨i, hi⟩).name = n := by
      simpa [Bool.and_eq_true, beq_iff_eq] using hp
    have hget : (sortByStarted rows).get? j =
        some ((splitGroup rows S n).get ⟨i, hi⟩) := by
      rw [he]
      exact List.get?_eq_get hi
    have hrj : (sortByStarted rows).get ⟨j, hj⟩ =
        (splitGroup rows S n).get ⟨i, hi⟩ := by
      have hq := List.get?_eq_get hj
      rw [hq] at hget
      exact Option.some.inj hget
    have henum : (j, (sortByStarted rows).get ⟨j, hj⟩) ∈
        (sortByStarted rows).enum := by
      rw [List.mk_mem_enum_iff_getElem?]
      simp [List.getElem?_eq_getElem hj]
    refine (mem_split_proj rows _).2
      ⟨{ (sortByStarted rows).get ⟨j, hj⟩ with
          check_suite_node_id :=
            ((sortByStarted rows).get ⟨j, hj⟩).check_suite_node_id ++
              decimalStr (dupIndexAt (sortByStarted rows) j
                ((sortByStarted rows).get ⟨j, hj⟩)) }, ?_, ?_⟩
    · show _ ∈ splitEnumerate rows
      simp only [splitEnumerate]
      exact List.mem_map_of_mem _ henum
    · have hdup : dupIndexAt (sortByStarted rows) j
          ((sortByStarted rows).get ⟨j, hj⟩) = i := by
        rw [dupIndexAt, hrj, hSn.1, hSn.2]
        exact hc
      rw [hdup, hrj, splitProj]
      rw [hSn.1, hSn.2]
  · intro i j hij heq
    apply hij
    apply decimalStr_inj
    have hd := congrArg String.data heq
    rw [String.data_append, String.data_append] at hd
    exact String.ext (List.append_cancel_left hd)
  · intro i j hi hj hij
    have hsort : List.Sorted (fun a b : CRow => a.started_at ≤ b.started_at)
        (sortByStarted rows) := List.sorted_insertionSort _ rows
    have hg : List.Sorted (fun a b : CRow => a.started_at ≤ b.started_at)
        (splitGroup rows S n) := List.Pairwise.filter _ hsort
    rcases lt_or_eq_of_le hij with hlt | heq
    · exact List.Sorted.rel_get_of_lt hg (Fin.mk_lt_mk.2 hlt)
    · subst heq
      exact le_refl _

/-- Two runs named "build" in suite "S", the earlier started at 1.  (Spec
scenario 5.) -/
def crLate : CRow :=
  { check_run_node_id := "run1", check_suite_node_id := "S",
    pull_request_node_id := none, author_user := none, url := "u1",
    name := "build", status := "COMPLETED", conclusion := "SUCCESS",
    check_suite_conclusion := "SUCCESS", started_at := 2,
    completed_at := some 3, check_suite_started := 0 }

def crEarly : CRow :=
  { check_run_node_id := "run2", check_suite_node_id := "S",
    pull_request_node_id := none, author_user := none, url := "u2",
    name := "build", status := "COMPLETED", conclusion := "SUCCESS",
    check_suite_conclusion := "SUCCESS", started_at := 1,
    completed_at := some 2, check_suite_started := 0 }

/-- Witness for C4: with two "build" runs in suite "S" started at 1 < 2, the
earlier run is emitted in suite "S0" and the later in suite "S1". -/
theorem C4_split_duplicate_check_runs_witness :
    (∃ r' ∈ _split_duplicate_check_runs [crLate, crEarly],
      splitProj r' = ("run2", "S0", "build", 1)) ∧
    (∃ r' ∈ _split_duplicate_check_runs [crLate, crEarly],
      splitProj r' = ("run1", "S1", "build", 2)) := by
  have h := (C4_split_duplicate_check_runs [crLate, crEarly] "S" "build"
    (by decide)).1
  constructor
  · obtain ⟨r', hr, hp⟩ := h 0 (by decide)
    refine ⟨r', hr, ?_⟩
    rw [hp]
    decide
  · obtain ⟨r', hr, hp⟩ := h 1 (by decide)
    refine ⟨r', hr, ?_⟩
    rw [hp]
    decide

/-! ### Lemmas about the status-context merge (C3) -/

theorem listMinD_le_init (l : List Int) (d : Int) : listMinD l d ≤ d := by
  induction l generalizing d with
  | nil => exact le_refl d
  | cons y ys ih =>
    rw [listMinD, List.foldl_cons]
    exact le_trans (ih (min d y)) (min_le_left d y)

theorem listMinD_le_mem (l : List Int) (d : Int) : ∀ x ∈ l, listMinD l d ≤ x := by
  induction l generalizing d with
  | nil => intro x hx; exact absurd hx (List.not_mem_nil x)
  | cons y ys ih =>
    intro x hx
    rw [listMinD, List.foldl_cons]
    rcases List.mem_cons.1 hx with hx | hx
    · exact le_trans (listMinD_le_init ys (min d y)) (hx ▸ min_le_right d y)
    · exact ih (min d y) x hx

theorem listMinD_mem_or (l : List Int) (d : Int) :
    listMinD l d = d ∨ listMinD l d ∈ l := by
  induction l generalizing d with
  | nil => exact Or.inl rfl
  | cons y ys ih =>
    rw [listMinD, List.foldl_cons]
    rcases ih (min d y) with h | h
    · rcases min_cases d y with ⟨he, -⟩ | ⟨he, -⟩
      · exact Or.inl (by rw [listMinD] at h; rw [h, he])
      · refine Or.inr ?_
        rw [listMinD] at h
        rw [h, he]
        exact List.mem_cons_self y ys
    · exact Or.inr (List.mem_cons_of_mem y h)

theorem listMaxD_ge_init (l : List Int) (d : Int) : d ≤ listMaxD l d := by
  induction l generalizing d with
  | nil => exact le_refl d
  | cons y ys ih =>
    rw [listMaxD, List.foldl_cons]
    exact le_trans (le_max_left d y) (ih (max d y))

theorem listMaxD_ge_mem (l : List Int) (d : Int) : ∀ x ∈ l, x ≤ listMaxD l d := by
  induction l generalizing d with
  | nil => intro x hx; exact absurd hx (List.not_mem_nil x)
  | cons y ys ih =>
    intro x hx
    rw [listMaxD, List.foldl_cons]
    rcases List.mem_cons.1 hx with hx | hx
    · exact le_trans (hx ▸ le_max_right d y) (listMaxD_ge_init ys (max d y))
    · exact ih (max d y) x hx

theorem listMaxD_mem_or (l : List Int) (d : Int) :
    listMaxD l d = d ∨ listMaxD l d ∈ l := by
  induction l generalizing d with
  | nil => exact Or.inl rfl
  | cons y ys ih =>
    rw [listMaxD, List.foldl_cons]
    rcases ih (max d y) with h | h
    · rcases max_cases d y with ⟨he, -⟩ | ⟨he, -⟩
      · exact Or.inl (by rw [listMaxD] at h; rw [h, he])
      · refine Or.inr ?_
        rw [listMaxD] at h
        rw [h, he]
        exact List.mem_cons_self y ys
    · exact Or.inr (List.mem_cons_of_mem y h)

theorem enumFrom_filter_snd_length (p : α → Bool) (l : List α) :
    ∀ n, ((l.enumFrom n).filter (fun iq => p iq.2)).length = (l.filter p).length := by
  induction l with
  | nil => intro n; rfl
  | cons x xs ih =>
    intro n
    rw [List.enumFrom_cons]
    by_cases hp : p x
    · rw [List.filter_cons_of_pos (by simpa using hp), List.filter_cons_of_pos hp,
        List.length_cons, List.length_cons, ih]
    · rw [List.filter_cons_of_neg (by simpa using hp), List.filter_cons_of_neg hp, ih]

theorem enumFrom_find?_snd (p : α → Bool) (l : List α) :
    ∀ n, ((l.enumFrom n).find? (fun iq => p iq.2)).map Prod.snd = l.find? p := by
  induction l with
  | nil => intro n; rfl
  | cons x xs ih =>
    intro n
    rw [List.enumFrom_cons]
    by_cases hp : p x
    · rw [List.find?_cons_of_pos _ (by simpa using hp), List.find?_cons_of_pos _ hp]
      rfl
    · rw [List.find?_cons_of_neg _ (by simpa using hp), List.find?_cons_of_neg _ hp, ih]

theorem split_filter_length (l : List β) (p q : β → Bool) :
    (l.filter (fun x => p x && q x)).length +
        (l.filter (fun x => p x && !q x)).length =
      (l.filter p).length := by
  induction l with
  | nil => rfl
  | cons x xs ih =>
    by_cases hp : p x
    · by_cases hq : q x
      · rw [List.filter_cons_of_pos (by simp [hp, hq]),
          List.filter_cons_of_neg (by simp [hp, hq]),
          List.filter_cons_of_pos hp, List.length_cons, List.length_cons,
          Nat.succ_add, ih]
      · rw [List.filter_cons_of_neg (by simp [hp, hq]),
          List.filter_cons_of_pos (by simp [hp, hq]),
          List.filter_cons_of_pos hp, List.length_cons, List.length_cons,
          Nat.add_succ, ih]
    · rw [List.filter_cons_of_neg (by simp [hp]),
        List.filter_cons_of_neg (by simp [hp]),
        List.filter_cons_of_neg hp, ih]

theorem enumFrom_pairwise_fst_lt (l : List α) :
    ∀ n, List.Pairwise (fun a b : Nat × α => a.1 < b.1) (l.enumFrom n) := by
  induction l with
  | nil => intro n; exact List.Pairwise.nil
  | cons x xs ih =>
    intro n
    rw [List.enumFrom_cons]
    refine List.Pairwise.cons ?_ (ih (n + 1))
    intro b hb
    rcases b with ⟨i, y⟩
    have := (List.mk_mem_enumFrom_iff_le_and_getElem?_sub.1 hb).1
    omega

theorem length_filter_index_eq (q : Nat × α → Bool) (k : Nat) :
    ∀ l : List (Nat × α), List.Pairwise (fun a b : Nat × α => a.1 < b.1) l →
      (∃ iq ∈ l, iq.1 = k ∧ q iq = true) →
      (l.filter (fun iq => q iq && (iq.1 == k))).length = 1 := by
  intro l
  induction l with
  | nil =>
    intro _ hex
    obtain ⟨iq, hm, -, -⟩ := hex
    exact absurd hm (List.not_mem_nil iq)
  | cons y ys ih =>
    intro hpl hex
    rw [List.pairwise_cons] at hpl
    by_cases hy : (q y && (y.1 == k)) = true
    · rw [List.filter_cons, if_pos hy, List.length_cons]
      have hyk : y.1 = k := by
        have := (Bool.and_eq_true .. ▸ hy).2
        simpa using this
      have hnil : ys.filter (fun iq => q iq && (iq.1 == k)) = [] := by
        rw [List.filter_eq_nil_iff]
        intro iq hiq
        have hlt := hpl.1 iq hiq
        simp only [Bool.and_eq_true, beq_iff_eq]
        rintro ⟨-, hik⟩
        omega
      rw [hnil]
      rfl
    · rw [List.filter_cons, if_neg hy]
      refine ih hpl.2 ?_
      obtain ⟨iq, hm, hik, hq⟩ := hex
      rcases List.mem_cons.1 hm with hm | hm
      · exfalso
        apply hy
        have hq2 : q y = true := hm ▸ hq
        have hik2 : y.1 = k := hm ▸ hik
        simp [hq2, hik2]
      · exact ⟨iq, hm, hik, hq⟩

theorem headMax_ge_mem (l : List Int) : ∀ x ∈ l, x ≤ headMax l := by
  intro x hx
  cases l with
  | nil => exact absurd hx (List.not_mem_nil x)
  | cons y ys =>
    rw [headMax]
    rcases List.mem_cons.1 hx with hx | hx
    · exact hx ▸ listMaxD_ge_init ys y
    · exact listMaxD_ge_mem ys y x hx

theorem headMin_le_mem (l : List Int) : ∀ x ∈ l, headMin l ≤ x := by
  intro x hx
  cases l with
  | nil => exact absurd hx (List.not_mem_nil x)
  | cons y ys =>
    rw [headMin]
    rcases List.mem_cons.1 hx with hx | hx
    · exact hx ▸ listMinD_le_init ys y
    · exact listMinD_le_mem ys y x hx

/-- The no-finish rows of one merge seed, as a filter of the whole table. -/
def seedGroup (rows : List CRow) (seed : String) : List CRow :=
  rows.filter (fun r => (seedOf r == seed) && noFinish r)

theorem seedGroup_eq_inner (rows : List CRow) (r : CRow)
    (hseed : seedOf r = seed) :
    (rows.filter (fun r => noFinish r)).filter
        (fun q => seedOf q == seedOf r) = seedGroup rows seed := by
  rw [List.filter_filter, seedGroup]
  exact List.filter_congr (fun x _ => by rw [hseed])

theorem seedGroup_subset_nf (rows : List CRow) (seed : String) :
    ∀ r ∈ seedGroup rows seed, r ∈ rows.filter (fun r => noFinish r) := by
  intro r hr
  have h := List.mem_filter.1 hr
  exact List.mem_filter.2 ⟨h.1, (Bool.and_eq_true .. ▸ h.2).2⟩

theorem mergeRowStep_some (rows : List CRow) (iq : Nat × CRow) (b : CRow)
    (h : mergeRowStep rows iq = some b) :
    seedOf b = seedOf iq.2 ∧
      ((b = iq.2 ∧ (noFinish iq.2 = false ∨
          ((rows.filter (fun r => noFinish r)).filter
            (fun q => seedOf q == seedOf iq.2)).length < 2)) ∨
        (noFinish iq.2 = true ∧ ∃ c, b.completed_at = some c)) := by
  rw [mergeRowStep] at h
  by_cases hnf : noFinish iq.2
  · rw [if_pos hnf] at h
    by_cases hlen : 2 ≤ ((rows.filter (fun r => noFinish r)).filter
        (fun q => seedOf q == seedOf iq.2)).length
    · rw [if_pos hlen] at h
      by_cases hfirst : (firstNoFinishIdx rows (seedOf iq.2) == some iq.1) = true
      · rw [if_pos hfirst] at h
        have hb := Option.some.inj h
        refine ⟨?_, Or.inr ⟨hnf, ?_⟩⟩
        · rw [← hb]
          rfl
        · rw [← hb]
          exact ⟨_, rfl⟩
      · rw [if_neg hfirst] at h
        exact absurd h (by simp)
    · rw [if_neg hlen] at h
      have hb := Option.some.inj h
      exact ⟨by rw [hb], Or.inl ⟨hb.symm, Or.inr (by omega)⟩⟩
  · rw [if_neg hnf] at h
    have hb := Option.some.inj h
    exact ⟨by rw [hb], Or.inl ⟨hb.symm, Or.inl (by simpa using hnf)⟩⟩

theorem mergeRowStep_isNone_iff (rows : List CRow) (iq : Nat × CRow) :
    mergeRowStep rows iq = none ↔
      (noFinish iq.2 = true ∧
        2 ≤ ((rows.filter (fun r => noFinish r)).filter
          (fun q => seedOf q == seedOf iq.2)).length ∧
        (firstNoFinishIdx rows (seedOf iq.2) == some iq.1) = false) := by
  rw [mergeRowStep]
  by_cases hnf : noFinish iq.2
  · rw [if_pos hnf]
    by_cases hlen : 2 ≤ ((rows.filter (fun r => noFinish r)).filter
        (fun q => seedOf q == seedOf iq.2)).length
    · rw [if_pos hlen]
      by_cases hfirst : (firstNoFinishIdx rows (seedOf iq.2) == some iq.1) = true
      · rw [if_pos hfirst]
        constructor
        · intro h
          exact absurd h (by simp)
        · rintro ⟨-, -, hf⟩
          rw [hfirst] at hf
          exact absurd hf (by simp)
      · rw [if_neg hfirst]
        constructor
        · intro _
          exact ⟨hnf, hlen, by simpa using hfirst⟩
        · intro _
          rfl
    · rw [if_neg hlen]
      constructor
      · intro h
        exact absurd h (by simp)
      · rintro ⟨-, hl, -⟩
        exact absurd hl hlen
  · rw [if_neg hnf]
    constructor
    · intro h
      exact absurd h (by simp)
    · rintro ⟨hn, -, -⟩
      exact absurd hn (by simpa using hnf)

theorem filterMap_filter_length (f : Nat × CRow → Option CRow)
    (P : CRow → Bool) (hf : ∀ iq b, f iq = some b → P b = P iq.2) :
    ∀ l : List (Nat × CRow),
      ((l.filterMap f).filter P).length +
          (l.filter (fun iq => P iq.2 && (f iq).isNone)).length =
        (l.filter (fun iq => P iq.2)).length := by
  intro l
  induction l with
  | nil => rfl
  | cons iq t ih =>
    rcases hfq : f iq with _ | b
    · rw [List.filterMap_cons_none hfq]
      by_cases hp : P iq.2
      · rw [List.filter_cons_of_pos (by simp [hp, hfq]),
          List.filter_cons_of_pos (by simp [hp]), List.length_cons,
          List.length_cons, Nat.add_succ, ih]
      · rw [List.filter_cons_of_neg (by simp [hp]),
          List.filter_cons_of_neg (by simp [hp]), ih]
    · rw [List.filterMap_cons_some hfq]
      have hpb := hf iq b hfq
      by_cases hp : P iq.2
      · rw [List.filter_cons_of_pos (by simp [hpb, hp]),
          List.filter_cons_of_neg (by simp [hfq]),
          List.filter_cons_of_pos (by simp [hp]), List.length_cons,
          List.length_cons, Nat.succ_add, ih]
      · rw [List.filter_cons_of_neg (by simp [hpb, hp]),
          List.filter_cons_of_neg (by simp [hp]),
          List.filter_cons_of_neg (by simp [hp]), ih]

theorem exists_enum_of_mem {l : List α} {x : α} (h : x ∈ l) :
    ∃ i, (i, x) ∈ l.enum := by
  obtain ⟨i, hi⟩ := List.mem_iff_get.1 h
  refine ⟨i.1, ?_⟩
  rw [List.mk_mem_enum_iff_getElem?, List.getElem?_eq_getElem i.2]
  rw [← hi]
  rfl

/-- C3 (amended): status-context merge.  For every seed (the concatenation
`check_suite_node_id ++ url`) with two or more rows lacking `completed_at`,
exactly one row of the group survives — the first one — with `started_at`
equal to the minimum of the group's starts *and* the group's suite-start
values, `completed_at` equal to the group's latest start, and the status
copied from a group row holding that latest start; every original group row
is gone from the output. -/
theorem C3_merge_status_contexts (rows : List CRow) (seed : String)
    (hg : 2 ≤ (seedGroup rows seed).length) :
    ∃ r0 S M st,
      rows.find? (fun r => noFinish r && (seedOf r == seed)) = some r0 ∧
      r0 ∈ seedGroup rows seed ∧
      { r0 with started_at := S, completed_at := some M, status := st } ∈
        _merge_status_contexts rows ∧
      ((S ∈ (seedGroup rows seed).map (fun r => r.started_at) ∨
          S ∈ (seedGroup rows seed).map (fun r => r.check_suite_started)) ∧
        (∀ x ∈ (seedGroup rows seed).map (fun r => r.started_at), S ≤ x) ∧
        (∀ x ∈ (seedGroup rows seed).map (fun r => r.check_suite_started), S ≤ x)) ∧
      (M ∈ (seedGroup rows seed).map (fun r => r.started_at) ∧
        ∀ x ∈ (seedGroup rows seed).map (fun r => r.started_at), x ≤ M) ∧
      (∃ rmax ∈ seedGroup rows seed, rmax.started_at = M ∧ st = rmax.status) ∧
      (∀ r ∈ seedGroup rows seed, r ∉ _merge_status_contexts rows) ∧
      ((_merge_status_contexts rows).filter
            (fun r => seedOf r == seed)).length +
          ((seedGroup rows seed).length - 1) =
        (rows.filter (fun r => seedOf r == seed)).length := by
  have hpos : 0 < (seedGroup rows seed).length := by omega
  obtain ⟨rw0, hrw0⟩ := List.exists_mem_of_length_pos hpos
  have hrw0m := List.mem_filter.1 hrw0
  have hex : ∃ x ∈ rows.enum, (noFinish x.2 && (seedOf x.2 == seed)) = true := by
    obtain ⟨i, hi⟩ := exists_enum_of_mem hrw0m.1
    exact ⟨(i, rw0), hi, by
      have h2 := hrw0m.2
      rw [Bool.and_comm]
      exact h2⟩
  obtain ⟨⟨k, r0⟩, hfind⟩ : ∃ kr0, rows.enum.find?
      (fun jq => noFinish jq.2 && (seedOf jq.2 == seed)) = some kr0 :=
    Option.isSome_iff_exists.1 (List.find?_isSome.2 hex)
  have hq := List.find?_some hfind
  have hq' : noFinish r0 = true ∧ seedOf r0 = seed := by simpa using hq
  have hq1 : noFinish r0 = true := hq'.1
  have hq2 : seedOf r0 = seed := hq'.2
  have hfindrow : rows.find? (fun r => noFinish r && (seedOf r == seed)) = some r0 := by
    have h := enumFrom_find?_snd (fun r => noFinish r && (seedOf r == seed)) rows 0
    rw [← h]
    rw [show rows.enumFrom 0 = rows.enum from rfl, hfind]
    rfl
  have hr0mem : r0 ∈ rows := List.mem_of_find?_eq_some hfindrow
  have hr0grp : r0 ∈ seedGroup rows seed :=
    List.mem_filter.2 ⟨hr0mem, by simp [hq2, hq1]⟩
  have hfirstidx : firstNoFinishIdx rows seed = some k := by
    rw [firstNoFinishIdx, hfind]
    rfl
  -- bounds through the no-finish table
  have hsub := seedGroup_subset_nf rows seed
  have hstart_le_gmax : ∀ x ∈ (seedGroup rows seed).map (fun r => r.started_at),
      x ≤ headMax ((rows.filter (fun r => noFinish r)).map (fun r => r.started_at)) := by
    intro x hx
    obtain ⟨r, hr, hrx⟩ := List.mem_map.1 hx
    exact headMax_ge_mem _ _ (List.mem_map.2 ⟨r, hsub r hr, hrx⟩)
  have hgmin_le_start : ∀ x ∈ (seedGroup rows seed).map (fun r => r.started_at),
      headMin ((rows.filter (fun r => noFinish r)).map (fun r => r.started_at)) ≤ x := by
    intro x hx
    obtain ⟨r, hr, hrx⟩ := List.mem_map.1 hx
    exact headMin_le_mem _ _ (List.mem_map.2 ⟨r, hsub r hr, hrx⟩)
  have hne : ∃ x0, x0 ∈ (seedGroup rows seed).map (fun r => r.started_at) :=
    ⟨rw0.started_at, List.mem_map.2 ⟨rw0, hrw0, rfl⟩⟩
  obtain ⟨x0, hx0⟩ := hne
  -- the computed fields
  have hm1le := listMinD_le_mem ((seedGroup rows seed).map (fun r => r.started_at))
    (headMax ((rows.filter (fun r => noFinish r)).map (fun r => r.started_at)))
  have hm1mem : listMinD ((seedGroup rows seed).map (fun r => r.started_at))
      (headMax ((rows.filter (fun r => noFinish r)).map (fun r => r.started_at))) ∈
      (seedGroup rows seed).map (fun r => r.started_at) := by
    rcases listMinD_mem_or ((seedGroup rows seed).map (fun r => r.started_at))
      (headMax ((rows.filter (fun r => noFinish r)).map (fun r => r.started_at))) with h | h
    · have h1 := hm1le x0 hx0
      have h2 := hstart_le_gmax x0 hx0
      have : listMinD ((seedGroup rows seed).map (fun r => r.started_at))
          (headMax ((rows.filter (fun r => noFinish r)).map (fun r => r.started_at))) = x0 := by
        omega
      rw [this]
      exact hx0
    · exact h
  have hm2le := listMinD_le_mem
    ((seedGroup rows seed).map (fun r => r.check_suite_started))
    (headMax ((rows.filter (fun r => noFinish r)).map (fun r => r.started_at)))
  have hMge := listMaxD_ge_mem ((seedGroup rows seed).map (fun r => r.started_at))
    (headMin ((rows.filter (fun r => noFinish r)).map (fun r => r.started_at)))
  have hMmem : listMaxD ((seedGroup rows seed).map (fun r => r.started_at))
      (headMin ((rows.filter (fun r => noFinish r)).map (fun r => r.started_at))) ∈
      (seedGroup rows seed).map (fun r => r.started_at) := by
    rcases listMaxD_mem_or ((seedGroup rows seed).map (fun r => r.started_at))
      (headMin ((rows.filter (fun r => noFinish r)).map (fun r => r.started_at))) with h | h
    · have h1 := hMge x0 hx0
      have h2 := hgmin_le_start x0 hx0
      have : listMaxD ((seedGroup rows seed).map (fun r => r.started_at))
          (headMin ((rows.filter (fun r => noFinish r)).map (fun r => r.started_at))) = x0 := by
        omega
      rw [this]
      exact hx0
    · exact h
  -- the status donor
  obtain ⟨rmax, hrmaxg, hrmaxs⟩ : ∃ rmax ∈ seedGroup rows seed,
      rmax.started_at = listMaxD ((seedGroup rows seed).map (fun r => r.started_at))
        (headMin ((rows.filter (fun r => noFinish r)).map (fun r => r.started_at))) := by
    obtain ⟨r, hr, hrx⟩ := List.mem_map.1 hMmem
    exact ⟨r, hr, hrx⟩
  have hfindmax : ∃ rfound, (seedGroup rows seed).find?
      (fun q => q.started_at == listMaxD ((seedGroup rows seed).map (fun r => r.started_at))
        (headMin ((rows.filter (fun r => noFinish r)).map (fun r => r.started_at)))) = some rfound :=
    Option.isSome_iff_exists.1 (List.find?_isSome.2 ⟨rmax, hrmaxg, by simp [hrmaxs]⟩)
  obtain ⟨rfound, hrfound⟩ := hfindmax
  have hrfoundg : rfound ∈ seedGroup rows seed := List.mem_of_find?_eq_some hrfound
  have hrfounds : rfound.started_at = listMaxD
      ((seedGroup rows seed).map (fun r => r.started_at))
      (headMin ((rows.filter (fun r => noFinish r)).map (fun r => r.started_at))) := by
    have := List.find?_some hrfound
    simpa using this
  refine ⟨r0,
    min (listMinD ((seedGroup rows seed).map (fun r => r.started_at))
        (headMax ((rows.filter (fun r => noFinish r)).map (fun r => r.started_at))))
      (listMinD ((seedGroup rows seed).map (fun r => r.check_suite_started))
        (headMax ((rows.filter (fun r => noFinish r)).map (fun r => r.started_at)))),
    listMaxD ((seedGroup rows seed).map (fun r => r.started_at))
      (headMin ((rows.filter (fun r => noFinish r)).map (fun r => r.started_at))),
    rfound.status, hfindrow, hr0grp, ?_, ⟨?_, ?_, ?_⟩, ⟨hMmem, hMge⟩,
    ⟨rfound, hrfoundg, hrfounds, rfl⟩, ?_, ?_⟩
  · -- membership of the merged row
    refine List.mem_filterMap.2 ⟨(k, r0), List.mem_of_find?_eq_some hfind, ?_⟩
    rw [mergeRowStep]
    have hgeq := seedGroup_eq_inner rows r0 hq2
    simp only
    rw [if_pos hq1, hgeq, if_pos hg, hq2, hfirstidx, if_pos (by simp), hrfound]
    rfl
  · -- S is one of the group's starts or suite starts
    rcases min_cases (listMinD ((seedGroup rows seed).map (fun r => r.started_at))
        (headMax ((rows.filter (fun r => noFinish r)).map (fun r => r.started_at))))
      (listMinD ((seedGroup rows seed).map (fun r => r.check_suite_started))
        (headMax ((rows.filter (fun r => noFinish r)).map (fun r => r.started_at)))) with
      ⟨he, -⟩ | ⟨he, hlt⟩
    · rw [he]
      exact Or.inl hm1mem
    · rw [he]
      rcases listMinD_mem_or ((seedGroup rows seed).map (fun r => r.check_suite_started))
        (headMax ((rows.filter (fun r => noFinish r)).map (fun r => r.started_at))) with h | h
      · exfalso
        have h1 := hm1le x0 hx0
        have h2 := hstart_le_gmax x0 hx0
        omega
      · exact Or.inr h
  · -- S below every group start
    intro x hx
    exact le_trans (min_le_left _ _) (hm1le x hx)
  · -- S below every group suite start
    intro x hx
    exact le_trans (min_le_right _ _) (hm2le x hx)
  · -- every original group row is dropped
    intro r hrg hrout
    obtain ⟨iq, hiqmem, hiqstep⟩ := List.mem_filterMap.1 hrout
    obtain ⟨hseedeq, hcases⟩ := mergeRowStep_some rows iq r hiqstep
    have hrmf := List.mem_filter.1 hrg
    have hrmf2 : seedOf r = seed ∧ noFinish r = true := by simpa using hrmf.2
    have hrnf : noFinish r = true := hrmf2.2
    have hrseed : seedOf r = seed := hrmf2.1
    rcases hcases with ⟨heq, hco⟩ | ⟨-, c, hc⟩
    · rcases hco with hnf | hsmall
      · rw [← heq] at hnf
        rw [hrnf] at hnf
        exact absurd hnf (by simp)
      · have hseq : seedOf iq.2 = seed := by
          rw [← heq]
          exact hrseed
        rw [seedGroup_eq_inner rows iq.2 hseq] at hsmall
        omega
    · have hrco : r.completed_at = none := by
        rw [noFinish] at hrnf
        exact Option.isNone_iff_eq_none.1 hrnf
      rw [hrco] at hc
      exact absurd hc (by simp)
  · -- counting: the group loses all rows but one
    have hL := filterMap_filter_length (mergeRowStep rows)
      (fun r => seedOf r == seed)
      (fun iq b hb => by
        show (seedOf b == seed) = (seedOf iq.2 == seed)
        rw [(mergeRowStep_some rows iq b hb).1]) rows.enum
    have hPlen : (rows.enum.filter
        (fun iq => seedOf iq.2 == seed)).length =
        (rows.filter (fun r => seedOf r == seed)).length :=
      enumFrom_filter_snd_length (fun r => seedOf r == seed) rows 0
    have hQlen : (rows.enum.filter
        (fun iq => (seedOf iq.2 == seed) && noFinish iq.2)).length =
        (seedGroup rows seed).length :=
      enumFrom_filter_snd_length (fun r => (seedOf r == seed) && noFinish r) rows 0
    have hcongr : rows.enum.filter
        (fun iq => (seedOf iq.2 == seed) && (mergeRowStep rows iq).isNone) =
        rows.enum.filter (fun iq => ((seedOf iq.2 == seed) && noFinish iq.2) &&
          !(firstNoFinishIdx rows seed == some iq.1)) := by
      refine List.filter_congr ?_
      intro iq _
      by_cases hs : (seedOf iq.2 == seed) = true
      · have hseq : seedOf iq.2 = seed := by simpa using hs
        by_cases hn : noFinish iq.2 = true
        · have hlen2 : 2 ≤ ((rows.filter (fun r => noFinish r)).filter
              (fun q => seedOf q == seedOf iq.2)).length := by
            rw [seedGroup_eq_inner rows iq.2 hseq]
            exact hg
          by_cases hfst : (firstNoFinishIdx rows seed == some iq.1) = true
          · have : mergeRowStep rows iq ≠ none := by
              rw [Ne, mergeRowStep_isNone_iff]
              rintro ⟨-, -, hff⟩
              rw [hseq] at hff
              rw [hfst] at hff
              exact absurd hff (by simp)
            rcases ho : mergeRowStep rows iq with _ | b
            · exact absurd ho this
            · simp [hs, hn, hfst, ho]
          · have : mergeRowStep rows iq = none := by
              rw [mergeRowStep_isNone_iff]
              refine ⟨hn, hlen2, ?_⟩
              rw [hseq]
              simpa using hfst
            simp [hs, hn, hfst, this]
        · have : mergeRowStep rows iq ≠ none := by
            rw [Ne, mergeRowStep_isNone_iff]
            rintro ⟨hff, -, -⟩
            rw [hff] at hn
            exact hn rfl
          rcases ho : mergeRowStep rows iq with _ | b
          · exact absurd ho this
          · simp [hs, hn, ho]
      · simp [hs]
    have hsplit := split_filter_length rows.enum
      (fun iq => (seedOf iq.2 == seed) && noFinish iq.2)
      (fun iq => firstNoFinishIdx rows seed == some iq.1)
    have hone : (rows.enum.filter
        (fun iq => ((seedOf iq.2 == seed) && noFinish iq.2) &&
          (firstNoFinishIdx rows seed == some iq.1))).length = 1 := by
      have hconv : rows.enum.filter
          (fun iq => ((seedOf iq.2 == seed) && noFinish iq.2) &&
            (firstNoFinishIdx rows seed == some iq.1)) =
          rows.enum.filter
          (fun iq => ((seedOf iq.2 == seed) && noFinish iq.2) && (iq.1 == k)) := by
        refine List.filter_congr ?_
        intro iq _
        rw [hfirstidx]
        by_cases hik : iq.1 = k
        · simp [hik]
        · have h1 : (some k == some iq.1) = false := by
            simp
            exact fun h => hik h.symm
          have h2 : (iq.1 == k) = false := by
            simp
            exact hik
          rw [h1, h2]
      rw [hconv]
      refine length_filter_index_eq _ k rows.enum (enumFrom_pairwise_fst_lt rows 0) ?_
      exact ⟨(k, r0), List.mem_of_find?_eq_some hfind, rfl, by simp [hq2, hq1]⟩
    rw [_merge_status_contexts]
    rw [hcongr] at hL
    omega

/-- A status-context pair on suite "s", url "u" (starts 10 and 20, no
completion) next to a finished check run of the same suite started at 5. -/
def cxU1 : CRow :=
  { check_run_node_id := "a", check_suite_node_id := "s",
    pull_request_node_id := none, author_user := none, url := "u",
    name := "ctx", status := "PENDING", conclusion := "",
    check_suite_conclusion := "", started_at := 10, completed_at := none,
    check_suite_started := 0 }

def cxU2 : CRow :=
  { check_run_node_id := "b", check_suite_node_id := "s",
    pull_request_node_id := none, author_user := none, url := "u",
    name := "ctx", status := "SUCCESS", conclusion := "",
    check_suite_conclusion := "", started_at := 20, completed_at := none,
    check_suite_started := 0 }

def cxV : CRow :=
  { check_run_node_id := "c", check_suite_node_id := "s",
    pull_request_node_id := none, author_user := none, url := "v",
    name := "run", status := "COMPLETED", conclusion := "SUCCESS",
    check_suite_conclusion := "", started_at := 5, completed_at := some 6,
    check_suite_started := 0 }

/-- Counterexample to C3 as stated: the group (suite "s", url "u") has no-
finish rows started at 10 and 20, so the claim predicts the surviving row
has `started_at = 10`; the code merges in the suite start (5, from the
finished run of the same suite) and produces `started_at = 5`. -/
theorem C3_merge_status_contexts_counterexample :
    (∀ r ∈ _merge_status_contexts
        (_calculate_check_suite_started [cxU1, cxU2, cxV]),
      r.url = "u" → ¬r.started_at = 10) ∧
    (∃ r ∈ _merge_status_contexts
        (_calculate_check_suite_started [cxU1, cxU2, cxV]),
      r.url = "u" ∧ r.started_at = 5 ∧ r.completed_at = some 20 ∧
        r.status = "SUCCESS") ∧
    (seedGroup (_calculate_check_suite_started [cxU1, cxU2, cxV]) "su").map
        (fun r => r.started_at) = [10, 20] := by
  decide

/-- Witness for the amended C3 at the same concrete table: the group's first
row survives in merged form. -/
theorem C3_merge_status_contexts_witness :
    ∃ r0 S M st,
      (_calculate_check_suite_started [cxU1, cxU2, cxV]).find?
          (fun r => noFinish r && (seedOf r == "su")) = some r0 ∧
      r0 ∈ seedGroup (_calculate_check_suite_started [cxU1, cxU2, cxV]) "su" ∧
      { r0 with started_at := S, completed_at := some M, status := st } ∈
        _merge_status_contexts (_calculate_check_suite_started [cxU1, cxU2, cxV]) := by
  obtain ⟨r0, S, M, st, h1, h2, h3, -⟩ := C3_merge_status_contexts
    (_calculate_check_suite_started [cxU1, cxU2, cxV]) "su" (by decide)
  exact ⟨r0, S, M, st, h1, h2, h3⟩

/-! ### C5: the final completion clamp -/

/-- A finished check run whose recorded completion precedes its start. -/
def c5fin : CRow :=
  { check_run_node_id := "a", check_suite_node_id := "s",
    pull_request_node_id := none, author_user := none, url := "u",
    name := "run", status := "COMPLETED", conclusion := "SUCCESS",
    check_suite_conclusion := "", started_at := 10, completed_at := some 3,
    check_suite_started := 0 }

/-- The pipeline's output row for `c5fin`: the split renames the suite and
the clamp lifts `completed_at` to `started_at`. -/
def c5out : CRow :=
  { c5fin with check_suite_node_id := "s0", check_suite_started := 10, completed_at := some 10 }

/-- A check run with no completion record and a non-NEUTRAL conclusion. -/
def c5row : CRow :=
  { check_run_node_id := "a", check_suite_node_id := "s",
    pull_request_node_id := none, author_user := none, url := "u",
    name := "run", status := "PENDING", conclusion := "FAILURE",
    check_suite_conclusion := "", started_at := 10, completed_at := none,
    check_suite_started := 0 }

/-- C5 (amended): for every row of the mined table, a NEUTRAL conclusion
carries no completion time, and `completed_at` is either absent or at least
`started_at`.  A missing `completed_at` is NOT set to `started_at`: `NaT`
propagates through `np.maximum`, so it stays missing whatever the
conclusion. -/
theorem C5_mine_check_runs_clamp (now : Int) (prInfo : String → Option PRInfo)
    (cc : String → Nat) (rows : List CRow) :
    ∀ r ∈ mineCheckRunsTable now prInfo cc rows,
      (r.conclusion = "NEUTRAL" → r.completed_at = none) ∧
      (r.completed_at = none ∨
        ∃ c, r.completed_at = some c ∧ r.started_at ≤ c) := by
  intro r hr
  unfold mineCheckRunsTable at hr
  simp only [List.mem_map] at hr
  obtain ⟨q, hq, rfl⟩ := hr
  obtain ⟨p, _, rfl⟩ := hq
  by_cases hc : (p.conclusion == "NEUTRAL") = true
  · rw [if_pos hc]
    refine ⟨fun _ => rfl, Or.inl rfl⟩
  · rw [if_neg hc]
    constructor
    · intro hN
      exact absurd (beq_iff_eq.mpr hN) hc
    · cases hpc : p.completed_at with
      | none => exact Or.inl (by simp [pyMaximumNaT, hpc])
      | some c =>
        exact Or.inr ⟨max c p.started_at,
          by simp [pyMaximumNaT, hpc], le_max_right _ _⟩

/-- Witness: the clamp applied to `c5fin` yields `c5out`, which satisfies
the amended invariant. -/
theorem C5_mine_check_runs_clamp_witness :
    (c5out.conclusion = "NEUTRAL" → c5out.completed_at = none) ∧
    (c5out.completed_at = none ∨
      ∃ c, c5out.completed_at = some c ∧ c5out.started_at ≤ c) :=
  C5_mine_check_runs_clamp 0 (fun _ => none) (fun _ => 0) [c5fin] c5out
    (by decide)

/-- Counterexample to C5 as stated: `c5row` has no completion record and the
conclusion FAILURE; the mined table keeps `completed_at` absent (instead of
setting it to `started_at`) while the conclusion is not NEUTRAL. -/
theorem C5_mine_check_runs_clamp_counterexample :
    ∃ r ∈ mineCheckRunsTable 0 (fun _ => none) (fun _ => 0) [c5row],
      r.completed_at = none ∧ ¬r.conclusion = "NEUTRAL" := by
  decide

/-! ### C6: the check-run timeline builder (`_build_timeline`) -/

/-- Gregorian leap year. -/
def isLeap (y : Nat) : Bool := (y % 4 == 0 && y % 100 != 0) || y % 400 == 0

/-- Days in month `m` of year `y` (months numbered 1..12). -/
def monthLen (y m : Nat) : Nat :=
  if m == 2 then (if isLeap y then 29 else 28)
  else if m == 4 || m == 6 || m == 9 || m == 11 then 30 else 31

/-- The month after `(y, m)`. -/
def nextYM (ym : Nat × Nat) : Nat × Nat :=
  if ym.2 == 12 then (ym.1 + 1, 1) else (ym.1, ym.2 + 1)

/-- The day numbers of the firsts of `n` consecutive months, starting with
month `ym` whose first falls on day number `d`. -/
def monthStartsAux : Nat → Nat × Nat → Nat → List Nat
  | 0, _, _ => []
  | n + 1, ym, d => d :: monthStartsAux n (nextYM ym) (d + monthLen ym.1 ym.2)

/-- The first `n` month starts counted in days from the epoch
(1970-01-01 is day 0, the first of a month). -/
def monthStarts (n : Nat) : List Nat := monthStartsAux n (1970, 1) 0

/-- Day number `d` is the first of some month. -/
def isFirstDay (d : Nat) : Bool := (monthStarts (d + 1)).contains d

/-- `dateutil.rrule(MONTHLY, dtstart=time_from, until=time_to, bymonthday=1)`
on naive datetimes as seconds: every first-of-month at `time_from`'s time of
day inside `[time_from, time_to]`.  The epoch-based calendar covers the
nonnegative timestamps the miner works with; the month-start generator gets
enough fuel to pass `time_to`. -/
def rruleMonthly1 (time_from time_to : Int) : List Int :=
  ((monthStarts ((time_to / 86400).toNat / 28 + 2)).map
      (fun d : Nat => (d : Int) * 86400 + time_from % 86400)).filter
    (fun x => decide (time_from ≤ x) && decide (x ≤ time_to))

/-- `timeline[-1] = v`. -/
def setLast (l : List Int) (v : Int) : List Int := l.dropLast ++ [v]

/-- The daily branch: `[time_from + timedelta(days=i) for i in range(days + 1)]`
(a Python range is empty when its stop is nonpositive). -/
def dailyList (time_from days : Int) : List Int :=
  (List.range (days + 1).toNat).map (fun i : Nat => time_from + (i : Int) * 86400)

/-- The weekly branch: `[time_from + timedelta(days=i) for i in range(0, days + 6, 7)]`
(reindexed by weeks: `len(range(0, stop, 7)) = (stop + 6) // 7`), then
`timeline[-1] = time_to`. -/
def weeklyList (time_from time_to days : Int) : List Int :=
  setLast ((List.range (((days + 6).toNat + 6) / 7)).map
    (fun i : Nat => time_from + (i : Int) * (7 * 86400))) time_to

/-- The monthly branch: the rrule list, `time_from` prepended when
`timeline[0] > time_from` and `time_to` appended when `timeline[-1] < time_to`.
The source indexes `timeline[0]`, which raises on an empty rrule list; that
case yields `[]` here and is unreachable for windows of at least 150 days. -/
def monthlyList (time_from time_to : Int) : List Int :=
  match rruleMonthly1 time_from time_to with
  | [] => []
  | b :: rest =>
    let withFrom := if time_from < b then time_from :: b :: rest else b :: rest
    if withFrom.getLastD 0 < time_to then withFrom ++ [time_to] else withFrom

/-- `_build_timeline`: `days = (time_to - time_from).days` floors like the
Python `timedelta`; strictly fewer than `5 * 7` days goes daily, strictly
fewer than `5 * 30` weekly, otherwise monthly. -/
def _build_timeline (time_from time_to : Int) : List Int :=
  if (time_to - time_from) / 86400 < 5 * 7 then
    dailyList time_from ((time_to - time_from) / 86400)
  else if (time_to - time_from) / 86400 < 5 * 30 then
    weeklyList time_from time_to ((time_to - time_from) / 86400)
  else monthlyList time_from time_to

lemma monthLen_bounds (y m : Nat) : 28 ≤ monthLen y m ∧ monthLen y m ≤ 31 := by
  unfold monthLen
  split
  · split <;> omega
  · split <;> omega

lemma monthStartsAux_length (n : Nat) :
    ∀ ym d, (monthStartsAux n ym d).length = n := by
  induction n with
  | zero => intro ym d; rfl
  | succ n ih => intro ym d; simp [monthStartsAux, ih]

lemma monthStartsAux_getElem_agree (i : Nat) :
    ∀ n m ym d, i < n → n ≤ m →
      (monthStartsAux m ym d)[i]? = (monthStartsAux n ym d)[i]? := by
  induction i with
  | zero =>
    intro n m ym d hn hm
    obtain ⟨n', rfl⟩ : ∃ k, n = k + 1 := ⟨n - 1, by omega⟩
    obtain ⟨m', rfl⟩ : ∃ k, m = k + 1 := ⟨m - 1, by omega⟩
    simp [monthStartsAux]
  | succ i ih =>
    intro n m ym d hn hm
    obtain ⟨n', rfl⟩ : ∃ k, n = k + 1 := ⟨n - 1, by omega⟩
    obtain ⟨m', rfl⟩ : ∃ k, m = k + 1 := ⟨m - 1, by omega⟩
    simp only [monthStartsAux, List.getElem?_cons_succ]
    exact ih n' m' _ _ (by omega) (by omega)

lemma monthStartsAux_getElem_ge :
    ∀ (n : Nat) (ym : Nat × Nat) (d i x : Nat),
      (monthStartsAux n ym d)[i]? = some x → d + 28 * i ≤ x := by
  intro n
  induction n with
  | zero => intro ym d i x h; simp [monthStartsAux] at h
  | succ n ih =>
    intro ym d i x h
    cases i with
    | zero =>
      simp [monthStartsAux] at h
      omega
    | succ i =>
      simp only [monthStartsAux, List.getElem?_cons_succ] at h
      have := ih _ _ _ _ h
      have := (monthLen_bounds ym.1 ym.2).1
      omega

lemma monthStartsAux_chain (n : Nat) :
    ∀ ym d, List.Chain' (fun a b => a < b ∧ b ≤ a + 31) (monthStartsAux n ym d) := by
  induction n with
  | zero => intro ym d; exact List.chain'_nil
  | succ n ih =>
    intro ym d
    rw [monthStartsAux, List.chain'_cons']
    refine ⟨?_, ih _ _⟩
    intro y hy
    cases n with
    | zero => simp [monthStartsAux] at hy
    | succ m =>
      rw [monthStartsAux] at hy
      simp only [List.head?_cons, Option.mem_def, Option.some.injEq] at hy
      have h1 := (monthLen_bounds ym.1 ym.2).1
      have h2 := (monthLen_bounds ym.1 ym.2).2
      omega

lemma monthStartsAux_cover (n : Nat) :
    ∀ ym d x, d ≤ x → x + 28 ≤ d + 28 * n →
      ∃ e ∈ monthStartsAux n ym d, x ≤ e ∧ e ≤ x + 30 := by
  induction n with
  | zero => intro ym d x h1 h2; exact absurd h2 (by omega)
  | succ n ih =>
    intro ym d x h1 h2
    rcases Nat.lt_or_ge x (d + 1) with hdx | hdx
    · refine ⟨d, ?_, by omega, by omega⟩
      rw [monthStartsAux]
      exact List.mem_cons_self _ _
    · have hlen1 := (monthLen_bounds ym.1 ym.2).1
      have hlen2 := (monthLen_bounds ym.1 ym.2).2
      rcases le_or_lt x (d + monthLen ym.1 ym.2) with hx2 | hx2
      · have hn : n ≠ 0 := by omega
        obtain ⟨m, rfl⟩ := Nat.exists_eq_succ_of_ne_zero hn
        refine ⟨d + monthLen ym.1 ym.2, ?_, hx2, by omega⟩
        rw [monthStartsAux, monthStartsAux]
        exact List.mem_cons_of_mem _ (List.mem_cons_self _ _)
      · obtain ⟨e, he, hxe⟩ :=
          ih (nextYM ym) (d + monthLen ym.1 ym.2) x (by omega) (by omega)
        refine ⟨e, ?_, hxe⟩
        rw [monthStartsAux]
        exact List.mem_cons_of_mem _ he

lemma isFirstDay_of_mem {n e : Nat} (h : e ∈ monthStarts n) :
    isFirstDay e = true := by
  obtain ⟨i, hi⟩ := List.mem_iff_getElem?.mp h
  have hlen : i < n := by
    by_contra hle
    rw [List.getElem?_eq_none] at hi
    · exact Option.noConfusion hi
    · rw [monthStarts, monthStartsAux_length]; omega
  have hge := monthStartsAux_getElem_ge n (1970, 1) 0 i e hi
  have h1 : (monthStartsAux n (1970, 1) 0)[i]? =
      (monthStartsAux (i + 1) (1970, 1) 0)[i]? :=
    monthStartsAux_getElem_agree i (i + 1) n (1970, 1) 0 (by omega) (by omega)
  have h2 : (monthStartsAux (e + 1) (1970, 1) 0)[i]? =
      (monthStartsAux (i + 1) (1970, 1) 0)[i]? :=
    monthStartsAux_getElem_agree i (i + 1) (e + 1) (1970, 1) 0 (by omega) (by omega)
  have hmem : e ∈ monthStarts (e + 1) := by
    rw [monthStarts]
    exact List.getElem?_mem (h2.trans (h1.symm.trans hi))
  rw [isFirstDay]
  unfold List.contains
  exact List.elem_iff.mpr hmem

lemma dailyT (f t days : Int) (h1 : t - f = 86400 * days) (hd : 1 ≤ days) :
    List.Chain' (fun a b => b = a + 86400) (dailyList f days) ∧
    (dailyList f days).head? = some f ∧
    (dailyList f days).getLast? = some t := by
  have hN : (days + 1).toNat = days.toNat + 1 := by omega
  refine ⟨?_, ?_, ?_⟩
  · rw [dailyList, hN]
    refine (List.chain'_map _).mpr ?_
    exact (List.chain'_range_succ _ _).mpr (fun m _ => by push_cast; ring)
  · rw [dailyList, hN, List.range_succ_eq_map]
    simp
  · have hcast : ((days.toNat : Int)) = days := by omega
    rw [dailyList, hN, List.range_succ, List.map_append, List.map_cons,
      List.map_nil, List.getLast?_concat, hcast]
    simp only [Option.some.injEq]
    omega

lemma weeklyT (f t days : Int) (h1 : t - f = 86400 * days)
    (h35 : 35 ≤ days) (h150 : days < 150) :
    List.Chain' (· < ·) (weeklyList f t days) ∧
    (weeklyList f t days).head? = some f ∧
    (weeklyList f t days).getLast? = some t ∧
    List.Chain' (fun a b => b = a + 7 * 86400) (weeklyList f t days).dropLast := by
  obtain ⟨K, hK⟩ : ∃ K, ((days + 6).toNat + 6) / 7 = K + 2 :=
    ⟨((days + 6).toNat + 6) / 7 - 2, by omega⟩
  have hsplit : weeklyList f t days =
      (List.range (K + 1)).map (fun i : Nat => f + (i : Int) * (7 * 86400)) ++ [t] := by
    rw [weeklyList, hK, setLast, List.range_succ, List.map_append,
      List.map_cons, List.map_nil, List.dropLast_concat]
  have hgapchain : List.Chain' (fun a b => b = a + 7 * 86400)
      ((List.range (K + 1)).map (fun i : Nat => f + (i : Int) * (7 * 86400))) := by
    refine (List.chain'_map _).mpr ?_
    exact (List.chain'_range_succ _ _).mpr (fun m _ => by push_cast; ring)
  have hKD : 7 * (K + 1) ≤ days.toNat + 5 := by omega
  have hgK : f + (K : Int) * (7 * 86400) < t := by
    have h2 : (7 : Int) * ((K : Int) + 1) ≤ ((days.toNat : Int)) + 5 := by
      exact_mod_cast hKD
    have h3 : ((days.toNat : Int)) = days := by omega
    omega
  refine ⟨?_, ?_, ?_, ?_⟩
  · rw [hsplit, List.chain'_append]
    refine ⟨hgapchain.imp (fun a b h => by omega), List.chain'_singleton _, ?_⟩
    intro x hx y hy
    rw [List.range_succ, List.map_append, List.map_cons, List.map_nil,
      List.getLast?_concat] at hx
    simp only [Option.mem_def, List.head?_cons, Option.some.injEq] at hx hy
    rw [← hx, ← hy]
    exact hgK
  · rw [hsplit, List.head?_append, List.range_succ_eq_map, List.map_cons]
    simp
  · rw [hsplit, List.getLast?_concat]
  · rw [hsplit, List.dropLast_concat]
    exact hgapchain

lemma monthlyT (f t : Int) (h0 : 0 ≤ f) (hf : f % 86400 = 0)
    (ht : t % 86400 = 0) (hgap : f + 150 * 86400 ≤ t) :
    List.Chain' (· < ·) (monthlyList f t) ∧
    (monthlyList f t).head? = some f ∧
    (monthlyList f t).getLast? = some t ∧
    ∀ x ∈ monthlyList f t, x = f ∨ x = t ∨
      (x % 86400 = 0 ∧ isFirstDay (x / 86400).toNat = true) := by
  have hfd := Int.ediv_add_emod f 86400
  have htd := Int.ediv_add_emod t 86400
  have hfD0 : 0 ≤ f / 86400 := Int.ediv_nonneg h0 (by norm_num)
  have hfDc : ((f / 86400).toNat : Int) = f / 86400 := Int.toNat_of_nonneg hfD0
  have htD0 : 0 ≤ t / 86400 := by omega
  have htDc : ((t / 86400).toNat : Int) = t / 86400 := Int.toNat_of_nonneg htD0
  have hbase : rruleMonthly1 f t =
      ((monthStarts ((t / 86400).toNat / 28 + 2)).map
        (fun d : Nat => (d : Int) * 86400)).filter
        (fun x => decide (f ≤ x) && decide (x ≤ t)) := by
    rw [rruleMonthly1, hf]
    simp only [add_zero]
  obtain ⟨e, heMem, heLB, heUB⟩ := monthStartsAux_cover
    ((t / 86400).toNat / 28 + 2) (1970, 1) 0 (f / 86400).toNat
    (Nat.zero_le _) (by omega)
  have heL' : (((f / 86400).toNat : Int)) ≤ (e : Int) := by exact_mod_cast heLB
  have heU' : ((e : Int)) ≤ ((f / 86400).toNat : Int) + 30 := by exact_mod_cast heUB
  have hef : f ≤ (e : Int) * 86400 := by omega
  have het : (e : Int) * 86400 ≤ t := by omega
  have hmemBase : ((e : Int) * 86400) ∈ rruleMonthly1 f t := by
    rw [hbase]
    refine List.mem_filter.mpr ⟨List.mem_map.mpr ⟨e, heMem, rfl⟩, ?_⟩
    simp [hef, het]
  have hpw : List.Pairwise (· < ·) (rruleMonthly1 f t) := by
    rw [hbase]
    refine List.Pairwise.sublist (List.filter_sublist _) ?_
    rw [List.pairwise_map]
    have hch := monthStartsAux_chain ((t / 86400).toNat / 28 + 2) (1970, 1) 0
    have hpN : List.Pairwise (fun a b : Nat => a < b)
        (monthStarts ((t / 86400).toNat / 28 + 2)) := by
      rw [monthStarts]
      exact List.chain'_iff_pairwise.mp (hch.imp (fun a b h => h.1))
    refine hpN.imp ?_
    intro a b h
    have hab : (a : Int) < (b : Int) := by exact_mod_cast h
    exact mul_lt_mul_of_pos_right hab (by norm_num)
  have hfacts : ∀ x ∈ rruleMonthly1 f t, f ≤ x ∧ x ≤ t ∧ x % 86400 = 0 ∧
      isFirstDay (x / 86400).toNat = true := by
    intro x hx
    rw [hbase] at hx
    obtain ⟨hx1, hx2⟩ := List.mem_filter.mp hx
    obtain ⟨d, hdm, rfl⟩ := List.mem_map.mp hx1
    have hxf : f ≤ (d : Int) * 86400 ∧ (d : Int) * 86400 ≤ t := by
      simpa using hx2
    refine ⟨hxf.1, hxf.2, Int.mul_emod_left _ _, ?_⟩
    rw [Int.mul_ediv_cancel _ (by norm_num : (86400 : Int) ≠ 0),
      Int.toNat_natCast]
    exact isFirstDay_of_mem hdm
  rcases hbb : rruleMonthly1 f t with _ | ⟨b, rest⟩
  · rw [hbb] at hmemBase
    exact absurd hmemBase (List.not_mem_nil _)
  rw [hbb] at hpw hfacts
  obtain ⟨y, hy⟩ : ∃ y, (b :: rest).getLast? = some y := by
    cases hr : (b :: rest).getLast? with
    | none => exact absurd (List.getLast?_eq_none_iff.mp hr) (List.cons_ne_nil _ _)
    | some z => exact ⟨z, rfl⟩
  have hyMem : y ∈ b :: rest := List.mem_of_mem_getLast? (Option.mem_def.mpr hy)
  have hyt : y ≤ t := (hfacts y hyMem).2.1
  have hbf : f ≤ b := (hfacts b (List.mem_cons_self _ _)).1
  have hchainb : List.Chain' (· < ·) (b :: rest) := List.chain'_iff_pairwise.mpr hpw
  simp only [monthlyList, hbb]
  by_cases hfb : f < b
  · rw [if_pos hfb]
    have hlastD : (f :: b :: rest).getLastD 0 = y := by
      rw [List.getLastD_eq_getLast?, List.getLast?_cons_cons, hy]
      rfl
    rw [hlastD]
    by_cases hyt2 : y < t
    · rw [if_pos hyt2]
      refine ⟨?_, ?_, ?_, ?_⟩
      · rw [List.chain'_append]
        refine ⟨?_, List.chain'_singleton _, ?_⟩
        · rw [List.chain'_cons']
          exact ⟨fun z hz => by simp at hz; omega, hchainb⟩
        · intro u hu v hv
          simp only [List.getLast?_cons_cons, hy, Option.mem_def,
            List.head?_cons, Option.some.injEq] at hu hv
          omega
      · rw [List.head?_append]
        rfl
      · rw [List.getLast?_concat]
      · intro x hx
        simp only [List.mem_append, List.mem_cons, List.not_mem_nil,
          or_false] at hx
        rcases hx with (rfl | hx | hx) | rfl
        · exact Or.inl rfl
        · subst hx
          exact Or.inr (Or.inr ((hfacts x (List.mem_cons_self _ _)).2.2))
        · exact Or.inr (Or.inr ((hfacts x (List.mem_cons_of_mem _ hx)).2.2))
        · exact Or.inr (Or.inl rfl)
    · rw [if_neg hyt2]
      have hyt3 : y = t := by omega
      refine ⟨?_, rfl, ?_, ?_⟩
      · rw [List.chain'_cons']
        exact ⟨fun z hz => by simp at hz; omega, hchainb⟩
      · rw [List.getLast?_cons_cons, hy, hyt3]
      · intro x hx
        simp only [List.mem_cons] at hx
        rcases hx with rfl | hx | hx
        · exact Or.inl rfl
        · subst hx
          exact Or.inr (Or.inr ((hfacts x (List.mem_cons_self _ _)).2.2))
        · exact Or.inr (Or.inr ((hfacts x (List.mem_cons_of_mem _ hx)).2.2))
  · rw [if_neg hfb]
    have hbf2 : b = f := by omega
    have hlastD : (b :: rest).getLastD 0 = y := by
      rw [List.getLastD_eq_getLast?, hy]
      rfl
    rw [hlastD]
    by_cases hyt2 : y < t
    · rw [if_pos hyt2]
      refine ⟨?_, ?_, ?_, ?_⟩
      · rw [List.chain'_append]
        refine ⟨hchainb, List.chain'_singleton _, ?_⟩
        intro u hu v hv
        simp only [hy, Option.mem_def, List.head?_cons,
          Option.some.injEq] at hu hv
        omega
      · rw [List.head?_append]
        simp [hbf2]
      · rw [List.getLast?_concat]
      · intro x hx
        simp only [List.mem_append, List.mem_cons, List.not_mem_nil,
          or_false] at hx
        rcases hx with (hx | hx) | rfl
        · subst hx
          exact Or.inr (Or.inr ((hfacts x (List.mem_cons_self _ _)).2.2))
        · exact Or.inr (Or.inr ((hfacts x (List.mem_cons_of_mem _ hx)).2.2))
        · exact Or.inr (Or.inl rfl)
    · rw [if_neg hyt2]
      have hyt3 : y = t := by omega
      refine ⟨hchainb, by simp [hbf2], by rw [hy, hyt3], ?_⟩
      intro x hx
      simp only [List.mem_cons] at hx
      rcases hx with hx | hx
      · subst hx
        exact Or.inr (Or.inr ((hfacts x (List.mem_cons_self _ _)).2.2))
      · exact Or.inr (Or.inr ((hfacts x (List.mem_cons_of_mem _ hx)).2.2))

/-- C6 (amended): for day-aligned nonnegative `time_from < time_to`, the
timeline boundaries are strictly increasing, start at `time_from` and end at
`time_to`; windows of strictly fewer than 35 days get daily buckets, of at
least 35 but strictly fewer than 150 days weekly buckets (the last one
truncated to `time_to`), and of 150 days or more monthly buckets whose
interior boundaries are firsts of months at midnight.  The thresholds are
strict (`days < 5 * 7`, `days < 5 * 30`): a window of exactly 35 days is
weekly and one of exactly 150 days is monthly; and without day alignment the
daily branch does not cover the window (no truncation step). -/
theorem C6_build_timeline (time_from time_to : Int) (h0 : 0 ≤ time_from)
    (hf : time_from % 86400 = 0) (ht : time_to % 86400 = 0)
    (hlt : time_from < time_to) :
    List.Chain' (· < ·) (_build_timeline time_from time_to) ∧
    (_build_timeline time_from time_to).head? = some time_from ∧
    (_build_timeline time_from time_to).getLast? = some time_to ∧
    (time_to - time_from < 35 * 86400 →
      List.Chain' (fun a b => b = a + 86400) (_build_timeline time_from time_to)) ∧
    (35 * 86400 ≤ time_to - time_from → time_to - time_from < 150 * 86400 →
      List.Chain' (fun a b => b = a + 7 * 86400)
        (_build_timeline time_from time_to).dropLast) ∧
    (150 * 86400 ≤ time_to - time_from →
      ∀ x ∈ _build_timeline time_from time_to,
        x = time_from ∨ x = time_to ∨
          (x % 86400 = 0 ∧ isFirstDay (x / 86400).toNat = true)) := by
  have hmod : (time_to - time_from) % 86400 = 0 := by
    rw [Int.sub_emod, hf, ht]
    rfl
  have hdm := Int.ediv_add_emod (time_to - time_from) 86400
  by_cases hc1 : (time_to - time_from) / 86400 < 5 * 7
  · have hT : _build_timeline time_from time_to =
        dailyList time_from ((time_to - time_from) / 86400) := by
      rw [_build_timeline, if_pos hc1]
    obtain ⟨hA, hB, hC⟩ := dailyT time_from time_to
      ((time_to - time_from) / 86400) (by omega) (by omega)
    rw [hT]
    refine ⟨hA.imp (fun a b h => by omega), hB, hC, fun _ => hA, ?_, ?_⟩
    · intro h35 _
      exact absurd h35 (by omega)
    · intro h150
      exact absurd h150 (by omega)
  · by_cases hc2 : (time_to - time_from) / 86400 < 5 * 30
    · have hT : _build_timeline time_from time_to =
          weeklyList time_from time_to ((time_to - time_from) / 86400) := by
        rw [_build_timeline, if_neg hc1, if_pos hc2]
      obtain ⟨hA, hB, hC, hD⟩ := weeklyT time_from time_to
        ((time_to - time_from) / 86400) (by omega) (by omega) (by omega)
      rw [hT]
      refine ⟨hA, hB, hC, ?_, fun _ _ => hD, ?_⟩
      · intro h35
        exact absurd h35 (by omega)
      · intro h150
        exact absurd h150 (by omega)
    · have hT : _build_timeline time_from time_to =
          monthlyList time_from time_to := by
        rw [_build_timeline, if_neg hc1, if_neg hc2]
      obtain ⟨hA, hB, hC, hD⟩ := monthlyT time_from time_to h0 hf ht (by omega)
      rw [hT]
      refine ⟨hA, hB, hC, ?_, ?_, fun _ => hD⟩
      · intro h35
        exact absurd h35 (by omega)
      · intro h35 h150
        exact absurd h150 (by omega)

/-- Witness: a day-aligned 2-day window gets the daily timeline `[0, 86400,
172800]` with all the amended properties. -/
theorem C6_build_timeline_witness :
    List.Chain' (· < ·) (_build_timeline 0 172800) ∧
    (_build_timeline 0 172800).head? = some 0 ∧
    (_build_timeline 0 172800).getLast? = some 172800 ∧
    ((172800 : Int) - 0 < 35 * 86400 →
      List.Chain' (fun a b => b = a + 86400) (_build_timeline 0 172800)) ∧
    (35 * 86400 ≤ (172800 : Int) - 0 → (172800 : Int) - 0 < 150 * 86400 →
      List.Chain' (fun a b => b = a + 7 * 86400)
        (_build_timeline 0 172800).dropLast) ∧
    (150 * 86400 ≤ (172800 : Int) - 0 →
      ∀ x ∈ _build_timeline 0 172800,
        x = 0 ∨ x = 172800 ∨
          (x % 86400 = 0 ∧ isFirstDay (x / 86400).toNat = true)) :=
  C6_build_timeline 0 172800 (by decide) (by decide) (by decide) (by decide)

/-- Counterexample to C6 as stated: a window of exactly 35 days is bucketed
weekly, not daily (second boundary a week after the first); a window of
exactly 150 days is bucketed monthly, not weekly; and a non-day-aligned
5-hour window yields the single boundary `[0]`, which does not reach
`time_to = 18000`. -/
theorem C6_build_timeline_counterexample :
    _build_timeline 0 (35 * 86400) =
      [0, 604800, 1209600, 1814400, 2419200, 3024000] ∧
    ¬(_build_timeline 0 (35 * 86400)).take 2 = [0, 86400] ∧
    _build_timeline 0 (150 * 86400) =
      [0, 2678400, 5097600, 7776000, 10368000, 12960000] ∧
    _build_timeline 0 18000 = [0] ∧
    ¬(_build_timeline 0 18000).getLast? = some 18000 := by
  decide

/-! ### Lemmas about the PR disambiguation (C2) -/

lemma argminFirst_eq_none_iff (f : α → Nat) (l : List α) :
    argminFirst f l = none ↔ l = [] := by
  cases l with
  | nil => simp [argminFirst]
  | cons x xs =>
    simp only [argminFirst]
    cases argminFirst f xs with
    | none => simp
    | some y => by_cases h : f x ≤ f y <;> simp [h]

lemma argminFirst_spec (f : α → Nat) :
    ∀ (l : List α) (y : α), argminFirst f l = some y →
      (∀ x ∈ l, f y ≤ f x) ∧
        ∃ l1 l2, l = l1 ++ y :: l2 ∧ ∀ x ∈ l1, f y < f x := by
  intro l
  induction l with
  | nil => intro y h; simp [argminFirst] at h
  | cons x xs ih =>
    intro y h
    rw [argminFirst] at h
    cases hxs : argminFirst f xs with
    | none =>
      rw [hxs] at h
      have h2 : some x = some y := h
      have hy : x = y := by simpa using h2
      subst hy
      have hnil : xs = [] := (argminFirst_eq_none_iff f xs).mp hxs
      subst hnil
      exact ⟨by simp, [], [], by simp, by simp⟩
    | some z =>
      rw [hxs] at h
      obtain ⟨hmin, l1, l2, hsplit, hstrict⟩ := ih z hxs
      have h2 : (if f x ≤ f z then some x else some z) = some y := h
      by_cases hle : f x ≤ f z
      · rw [if_pos hle] at h2
        have hy : x = y := by simpa using h2
        subst hy
        refine ⟨?_, [], xs, by simp, by simp⟩
        intro w hw
        rcases List.mem_cons.mp hw with rfl | hw
        · exact le_refl _
        · exact le_trans hle (hmin w hw)
      · rw [if_neg hle] at h2
        have hy : z = y := by simpa using h2
        subst hy
        refine ⟨?_, x :: l1, l2, by rw [hsplit]; rfl, ?_⟩
        · intro w hw
          rcases List.mem_cons.mp hw with rfl | hw
          · omega
          · exact hmin w hw
        · intro w hw
          rcases List.mem_cons.mp hw with rfl | hw
          · omega
          · exact hstrict w hw

lemma dropDupPairsGo_sublist (seen : List (String × Option String)) :
    ∀ l : List CRow, (dropDupPairsGo seen l).Sublist l := by
  intro l
  induction l generalizing seen with
  | nil => simp [dropDupPairsGo]
  | cons r rest ih =>
    rw [dropDupPairsGo]
    split
    · exact (ih seen).cons _
    · exact (ih _).cons₂ _

lemma dropDupPairsGo_keeps (rid : String) :
    ∀ (l : List CRow) (seen : List (String × Option String)),
      (∀ s ∈ seen, s.1 ≠ rid) → (∃ r ∈ l, r.check_run_node_id = rid) →
      ∃ r' ∈ dropDupPairsGo seen l, r'.check_run_node_id = rid := by
  intro l
  induction l with
  | nil =>
    intro seen hseen hex
    obtain ⟨r, hr, _⟩ := hex
    exact absurd hr (List.not_mem_nil _)
  | cons x xs ih =>
    intro seen hseen hex
    obtain ⟨r, hr, hrid⟩ := hex
    rw [dropDupPairsGo]
    by_cases hmem : (x.check_run_node_id, x.pull_request_node_id) ∈ seen
    · rw [if_pos hmem]
      have hxrid : x.check_run_node_id ≠ rid := hseen _ hmem
      rcases List.mem_cons.mp hr with rfl | hr2
      · exact absurd hrid hxrid
      · exact ih seen hseen ⟨r, hr2, hrid⟩
    · rw [if_neg hmem]
      by_cases hx : x.check_run_node_id = rid
      · exact ⟨x, List.mem_cons_self _ _, hx⟩
      · rcases List.mem_cons.mp hr with rfl | hr2
        · exact absurd hrid hx
        · have hseen' : ∀ s ∈ (x.check_run_node_id, x.pull_request_node_id) :: seen,
              s.1 ≠ rid := by
            intro s hs
            rcases List.mem_cons.mp hs with rfl | hs2
            · exact hx
            · exact hseen s hs2
          obtain ⟨r', hr', hrid'⟩ := ih _ hseen' ⟨r, hr2, hrid⟩
          exact ⟨r', List.mem_cons_of_mem _ hr', hrid'⟩

lemma runRows_map_rid {g : CRow → CRow}
    (hg : ∀ r, (g r).check_run_node_id = r.check_run_node_id)
    (l : List CRow) (rid : String) :
    runRows (l.map g) rid = (runRows l rid).map g := by
  rw [runRows, runRows, List.filter_map]
  congr 1
  refine List.filter_congr ?_
  intro r _
  simp [Function.comp, hg]

lemma mem_dropOutside {now : Int} {prInfo : String → Option PRInfo}
    {rows : List CRow} {r1 : CRow}
    (h : r1 ∈ dropOutsideLifetime now prInfo rows) :
    ∃ r ∈ rows, r1 = r ∨ r1 = { r with pull_request_node_id := none } := by
  rw [dropOutsideLifetime] at h
  obtain ⟨r, hr, rfl⟩ := List.mem_map.mp h
  by_cases hl : lifetimeOk now prInfo r = true
  · exact ⟨r, hr, Or.inl (by rw [if_pos hl])⟩
  · exact ⟨r, hr, Or.inr (by rw [if_neg hl])⟩

lemma dropOutside_lifetime {now : Int} {prInfo : String → Option PRInfo}
    {rows : List CRow} {r1 : CRow}
    (h : r1 ∈ dropOutsideLifetime now prInfo rows) :
    ∀ p, r1.pull_request_node_id = some p → lifetimeOk now prInfo r1 = true := by
  rw [dropOutsideLifetime] at h
  obtain ⟨r, _, rfl⟩ := List.mem_map.mp h
  by_cases hl : lifetimeOk now prInfo r = true
  · rw [if_pos hl]
    exact fun p _ => hl
  · rw [if_neg hl]
    intro p hp
    exact absurd hp (by simp)

lemma dropOutside_rid (now : Int) (prInfo : String → Option PRInfo)
    (rows : List CRow) (rid : String) :
    (runRows (dropOutsideLifetime now prInfo rows) rid).length =
      (runRows rows rid).length := by
  rw [dropOutsideLifetime, runRows_map_rid, List.length_map]
  intro r
  by_cases hl : lifetimeOk now prInfo r = true
  · rw [if_pos hl]
  · rw [if_neg hl]

lemma hasAmbiguity_trans {now : Int} {prInfo : String → Option PRInfo}
    {rows : List CRow}
    (h : hasAmbiguity (dropDuplicatePairs (dropOutsideLifetime now prInfo rows))
      = true) : hasAmbiguity rows = true := by
  rw [hasAmbiguity, List.any_eq_true] at h
  obtain ⟨r, hr, hcnt⟩ := h
  have hcnt2 : 2 ≤ (runRows (dropDuplicatePairs (dropOutsideLifetime now prInfo rows))
      r.check_run_node_id).length := by simpa using hcnt
  have hsub : (runRows (dropDuplicatePairs (dropOutsideLifetime now prInfo rows))
      r.check_run_node_id).Sublist
      (runRows (dropOutsideLifetime now prInfo rows) r.check_run_node_id) :=
    (dropDupPairsGo_sublist [] _).filter _
  have hlen : 2 ≤ (runRows rows r.check_run_node_id).length := by
    have := hsub.length_le
    have := dropOutside_rid now prInfo rows r.check_run_node_id
    omega
  have hrrows : ∃ r0 ∈ rows, r0.check_run_node_id = r.check_run_node_id := by
    have h1 : r ∈ dropOutsideLifetime now prInfo rows :=
      (dropDupPairsGo_sublist [] _).mem hr
    obtain ⟨r0, hr0, hca⟩ := mem_dropOutside h1
    refine ⟨r0, hr0, ?_⟩
    rcases hca with rfl | rfl
    · rfl
    · rfl
  obtain ⟨r0, hr0, hrid0⟩ := hrrows
  rw [hasAmbiguity, List.any_eq_true]
  refine ⟨r0, hr0, ?_⟩
  rw [hrid0]
  simpa using hlen

lemma exists_first_min {β : Type _} [LinearOrder β] (key : α → β)
    (idx : α → Nat) :
    ∀ l : List α, l ≠ [] → List.Pairwise (fun a b => idx a < idx b) l →
      ∃ x ∈ l, (∀ y ∈ l, key x ≤ key y) ∧
        ∀ y ∈ l, idx y < idx x → key x < key y := by
  intro l
  induction l with
  | nil => intro h _; exact absurd rfl h
  | cons a as ih =>
    intro _ hpw
    by_cases has : as = []
    · subst has
      refine ⟨a, List.mem_cons_self _ _, ?_, ?_⟩
      · intro y hy
        rcases List.mem_cons.mp hy with rfl | hy
        · exact le_refl _
        · exact absurd hy (List.not_mem_nil _)
      · intro y hy hidx
        rcases List.mem_cons.mp hy with rfl | hy
        · omega
        · exact absurd hy (List.not_mem_nil _)
    · obtain ⟨x, hx, hmin, hfirst⟩ := ih has (List.Pairwise.of_cons hpw)
      have hhead : ∀ y ∈ as, idx a < idx y := (List.pairwise_cons.mp hpw).1
      by_cases hle : key a ≤ key x
      · refine ⟨a, List.mem_cons_self _ _, ?_, ?_⟩
        · intro y hy
          rcases List.mem_cons.mp hy with rfl | hy
          · exact le_refl _
          · exact le_trans hle (hmin y hy)
        · intro y hy hidx
          rcases List.mem_cons.mp hy with rfl | hy
          · omega
          · exact absurd hidx (by have := hhead y hy; omega)
      · refine ⟨x, List.mem_cons_of_mem _ hx, ?_, ?_⟩
        · intro y hy
          rcases List.mem_cons.mp hy with rfl | hy
          · exact le_of_lt (not_le.mp hle)
          · exact hmin y hy
        · intro y hy hidx
          rcases List.mem_cons.mp hy with rfl | hy
          · exact not_le.mp hle
          · exact hfirst y hy hidx

lemma keepFirst_subset {rows3 : List CRow} {r' : CRow}
    (h : r' ∈ keepFirstMinKey rows3) : r' ∈ rows3 := by
  rw [keepFirstMinKey] at h
  obtain ⟨iq, hiq, rfl⟩ := List.mem_map.mp h
  have h1 := (List.mem_filter.mp hiq).1
  rcases iq with ⟨i, x⟩
  exact List.getElem?_mem (List.mk_mem_enum_iff_getElem?.mp h1)

lemma keepFirst_group (rows3 : List CRow) (rid : String)
    (hne : ∃ r ∈ rows3, r.check_run_node_id = rid) :
    ∃ u, runRows (keepFirstMinKey rows3) rid = [u] := by
  have hGpw : List.Pairwise (fun a b : Nat × CRow => a.1 < b.1)
      (rows3.enum.filter (fun iq => iq.2.check_run_node_id == rid)) :=
    List.Pairwise.sublist (List.filter_sublist _)
      (enumFrom_pairwise_fst_lt rows3 0)
  have hGne : rows3.enum.filter (fun iq => iq.2.check_run_node_id == rid) ≠ [] := by
    obtain ⟨r, hr, hrid⟩ := hne
    obtain ⟨i, hi⟩ := exists_enum_of_mem hr
    intro hnil
    have hmem : (i, r) ∈ rows3.enum.filter
        (fun iq => iq.2.check_run_node_id == rid) :=
      List.mem_filter.mpr ⟨hi, by simp [hrid]⟩
    rw [hnil] at hmem
    exact List.not_mem_nil _ hmem
  obtain ⟨iqs, hiqsG, hmin, hfirst⟩ := exists_first_min
    (fun iq : Nat × CRow => finalKey iq.2.pull_request_node_id)
    (fun iq => iq.1) _ hGne hGpw
  have hiqsEnum : iqs ∈ rows3.enum := (List.mem_filter.mp hiqsG).1
  have hiqsRid : iqs.2.check_run_node_id = rid := by
    have := (List.mem_filter.mp hiqsG).2
    simpa using this
  have hkeep : ∀ jq ∈ rows3.enum,
      jq.2.check_run_node_id = iqs.2.check_run_node_id →
      (finalKey iqs.2.pull_request_node_id ≤ finalKey jq.2.pull_request_node_id ∧
        (jq.1 < iqs.1 →
          finalKey iqs.2.pull_request_node_id <
            finalKey jq.2.pull_request_node_id)) := by
    intro jq hjq hjrid
    have hjG : jq ∈ rows3.enum.filter
        (fun iq => iq.2.check_run_node_id == rid) :=
      List.mem_filter.mpr ⟨hjq, by rw [hiqsRid] at hjrid; simp [hjrid]⟩
    exact ⟨hmin jq hjG, fun hlt => hfirst jq hjG hlt⟩
  have huniq : ∀ jq ∈ rows3.enum.filter
      (fun iq => iq.2.check_run_node_id == rid),
      (∀ kq ∈ rows3.enum, kq.2.check_run_node_id = jq.2.check_run_node_id →
        (finalKey jq.2.pull_request_node_id ≤ finalKey kq.2.pull_request_node_id ∧
          (kq.1 < jq.1 → finalKey jq.2.pull_request_node_id <
            finalKey kq.2.pull_request_node_id))) → jq = iqs := by
    intro jq hjqG hcond
    have hjRid : jq.2.check_run_node_id = rid := by
      have := (List.mem_filter.mp hjqG).2
      simpa using this
    by_cases hidx : jq.1 = iqs.1
    · by_contra hne3
      have hpw2 : List.Pairwise (fun a b : Nat × CRow => a.1 ≠ b.1)
          (rows3.enum.filter (fun iq => iq.2.check_run_node_id == rid)) :=
        hGpw.imp (fun h => by omega)
      have hsymm : Symmetric (fun a b : Nat × CRow => a.1 ≠ b.1) :=
        fun a b hab => Ne.symm hab
      exact List.Pairwise.forall hsymm hpw2 hjqG hiqsG hne3 hidx
    · rcases Nat.lt_or_ge jq.1 iqs.1 with hlt | hge
      · have h1 := hfirst jq hjqG hlt
        have h2 := (hcond iqs hiqsEnum (by rw [hiqsRid, hjRid])).1
        exact absurd (lt_of_le_of_lt h2 h1) (lt_irrefl _)
      · have hlt2 : iqs.1 < jq.1 := by omega
        have h1 := (hcond iqs hiqsEnum (by rw [hiqsRid, hjRid])).2 hlt2
        have h2 := hmin jq hjqG
        exact absurd (lt_of_le_of_lt h2 h1) (lt_irrefl _)
  refine ⟨iqs.2, ?_⟩
  rw [keepFirstMinKey, runRows, List.filter_map]
  have hsing : (rows3.enum.filter (fun iq =>
      decide (∀ jq ∈ rows3.enum,
        jq.2.check_run_node_id = iq.2.check_run_node_id →
          (finalKey iq.2.pull_request_node_id ≤
              finalKey jq.2.pull_request_node_id ∧
            (jq.1 < iq.1 → finalKey iq.2.pull_request_node_id <
              finalKey jq.2.pull_request_node_id))))).filter
      ((fun r => r.check_run_node_id == rid) ∘ fun iq : Nat × CRow => iq.2) = [iqs] := by
    have hFsub : ((rows3.enum.filter (fun iq =>
        decide (∀ jq ∈ rows3.enum,
          jq.2.check_run_node_id = iq.2.check_run_node_id →
            (finalKey iq.2.pull_request_node_id ≤
                finalKey jq.2.pull_request_node_id ∧
              (jq.1 < iq.1 → finalKey iq.2.pull_request_node_id <
                finalKey jq.2.pull_request_node_id))))).filter
        ((fun r => r.check_run_node_id == rid) ∘ fun iq : Nat × CRow => iq.2)).Sublist rows3.enum :=
      (List.filter_sublist _).trans (List.filter_sublist _)
    have hFpw := List.Pairwise.sublist hFsub (enumFrom_pairwise_fst_lt rows3 0)
    have hFmem : iqs ∈ (rows3.enum.filter (fun iq =>
        decide (∀ jq ∈ rows3.enum,
          jq.2.check_run_node_id = iq.2.check_run_node_id →
            (finalKey iq.2.pull_request_node_id ≤
                finalKey jq.2.pull_request_node_id ∧
              (jq.1 < iq.1 → finalKey iq.2.pull_request_node_id <
                finalKey jq.2.pull_request_node_id))))).filter
        ((fun r => r.check_run_node_id == rid) ∘ fun iq : Nat × CRow => iq.2) := by
      refine List.mem_filter.mpr ⟨List.mem_filter.mpr ⟨hiqsEnum, ?_⟩, ?_⟩
      · exact decide_eq_true hkeep
      · simp [Function.comp, hiqsRid]
    have hFall : ∀ x ∈ (rows3.enum.filter (fun iq =>
        decide (∀ jq ∈ rows3.enum,
          jq.2.check_run_node_id = iq.2.check_run_node_id →
            (finalKey iq.2.pull_request_node_id ≤
                finalKey jq.2.pull_request_node_id ∧
              (jq.1 < iq.1 → finalKey iq.2.pull_request_node_id <
                finalKey jq.2.pull_request_node_id))))).filter
        ((fun r => r.check_run_node_id == rid) ∘ fun iq : Nat × CRow => iq.2), x = iqs := by
      intro x hx
      obtain ⟨hx1, hx2⟩ := List.mem_filter.mp hx
      obtain ⟨hx3, hx4⟩ := List.mem_filter.mp hx1
      refine huniq x (List.mem_filter.mpr ⟨hx3, hx2⟩) ?_
      exact of_decide_eq_true hx4
    cases hF : (rows3.enum.filter (fun iq =>
        decide (∀ jq ∈ rows3.enum,
          jq.2.check_run_node_id = iq.2.check_run_node_id →
            (finalKey iq.2.pull_request_node_id ≤
                finalKey jq.2.pull_request_node_id ∧
              (jq.1 < iq.1 → finalKey iq.2.pull_request_node_id <
                finalKey jq.2.pull_request_node_id))))).filter
        ((fun r => r.check_run_node_id == rid) ∘ fun iq : Nat × CRow => iq.2) with
    | nil =>
      rw [hF] at hFmem
      exact absurd hFmem (List.not_mem_nil _)
    | cons a t =>
      cases t with
      | nil =>
        rw [hF] at hFmem
        have := hFall a (by rw [hF]; exact List.mem_cons_self _ _)
        rcases List.mem_cons.mp hFmem with h1 | h1
        · rw [← h1]
        · exact absurd h1 (List.not_mem_nil _)
      | cons b t2 =>
        have ha := hFall a (by rw [hF]; exact List.mem_cons_self _ _)
        have hb := hFall b (by
          rw [hF]
          exact List.mem_cons_of_mem _ (List.mem_cons_self _ _))
        rw [hF] at hFpw
        have := (List.pairwise_cons.mp hFpw).1 b (List.mem_cons_self _ _)
        rw [ha, hb] at this
        omega
  rw [hsing, List.map_cons, List.map_nil]

lemma applyHeuristics_rid_inv (prInfo : String → Option PRInfo)
    (cc : String → Nat) (rows2 : List CRow) (r : CRow) :
    (if 2 ≤ (runRows rows2 r.check_run_node_id).length then
        match chosenFor prInfo cc rows2 r.check_run_node_id with
        | some c => if r = c then r else { r with pull_request_node_id := none }
        | none => { r with pull_request_node_id := none }
      else r).check_run_node_id = r.check_run_node_id := by
  by_cases h : 2 ≤ (runRows rows2 r.check_run_node_id).length
  · rw [if_pos h]
    cases chosenFor prInfo cc rows2 r.check_run_node_id with
    | none => rfl
    | some c =>
      show (if r = c then r
        else { r with pull_request_node_id := none }).check_run_node_id =
          r.check_run_node_id
      by_cases he : r = c
      · rw [if_pos he]
      · rw [if_neg he]
  · rw [if_neg h]

lemma applyHeuristics_apply (prInfo : String → Option PRInfo)
    (cc : String → Nat) (rows2 : List CRow) (r : CRow) :
    (if 2 ≤ (runRows rows2 r.check_run_node_id).length then
        match chosenFor prInfo cc rows2 r.check_run_node_id with
        | some c => if r = c then r else { r with pull_request_node_id := none }
        | none => { r with pull_request_node_id := none }
      else r) = r ∨
    ((if 2 ≤ (runRows rows2 r.check_run_node_id).length then
        match chosenFor prInfo cc rows2 r.check_run_node_id with
        | some c => if r = c then r else { r with pull_request_node_id := none }
        | none => { r with pull_request_node_id := none }
      else r) = { r with pull_request_node_id := none } ∧
      2 ≤ (runRows rows2 r.check_run_node_id).length) := by
  by_cases h : 2 ≤ (runRows rows2 r.check_run_node_id).length
  · rw [if_pos h]
    cases hc : chosenFor prInfo cc rows2 r.check_run_node_id with
    | none => exact Or.inr ⟨rfl, h⟩
    | some c =>
      show (if r = c then r else { r with pull_request_node_id := none }) = r ∨
        ((if r = c then r else { r with pull_request_node_id := none }) =
          { r with pull_request_node_id := none } ∧
          2 ≤ (runRows rows2 r.check_run_node_id).length)
      by_cases he : r = c
      · exact Or.inl (if_pos he)
      · exact Or.inr ⟨if_neg he, h⟩
  · exact Or.inl (if_neg h)

lemma applyHeuristics_shape {prInfo : String → Option PRInfo}
    {cc : String → Nat} {rows2 : List CRow} {r' : CRow}
    (h : r' ∈ applyHeuristics prInfo cc rows2) :
    ∃ r ∈ rows2, r' = r ∨ r' = { r with pull_request_node_id := none } := by
  rw [applyHeuristics] at h
  obtain ⟨r, hr, rfl⟩ := List.mem_map.mp h
  rcases applyHeuristics_apply prInfo cc rows2 r with h1 | ⟨h1, _⟩
  · exact ⟨r, hr, Or.inl h1⟩
  · exact ⟨r, hr, Or.inr h1⟩

lemma applyHeuristics_apply_winner (prInfo : String → Option PRInfo)
    (cc : String → Nat) (rows2 : List CRow) (r : CRow)
    (hamb : 2 ≤ (runRows rows2 r.check_run_node_id).length) :
    (if 2 ≤ (runRows rows2 r.check_run_node_id).length then
        match chosenFor prInfo cc rows2 r.check_run_node_id with
        | some c => if r = c then r else { r with pull_request_node_id := none }
        | none => { r with pull_request_node_id := none }
      else r) = { r with pull_request_node_id := none } ∨
    (chosenFor prInfo cc rows2 r.check_run_node_id = some r ∧
      (if 2 ≤ (runRows rows2 r.check_run_node_id).length then
        match chosenFor prInfo cc rows2 r.check_run_node_id with
        | some c => if r = c then r else { r with pull_request_node_id := none }
        | none => { r with pull_request_node_id := none }
      else r) = r) := by
  rw [if_pos hamb]
  cases hc : chosenFor prInfo cc rows2 r.check_run_node_id with
  | none => exact Or.inl rfl
  | some c =>
    show (if r = c then r else { r with pull_request_node_id := none }) =
        { r with pull_request_node_id := none } ∨
      ((some c : Option CRow) = some r ∧
        (if r = c then r else { r with pull_request_node_id := none }) = r)
    by_cases he : r = c
    · exact Or.inr ⟨by rw [he], if_pos he⟩
    · exact Or.inl (if_neg he)

lemma applyHeuristics_winner {prInfo : String → Option PRInfo}
    {cc : String → Nat} {rows2 : List CRow} {r' : CRow}
    (h : r' ∈ applyHeuristics prInfo cc rows2)
    (hamb : 2 ≤ (runRows rows2 r'.check_run_node_id).length)
    (hsome : r'.pull_request_node_id.isSome = true) :
    chosenFor prInfo cc rows2 r'.check_run_node_id = some r' := by
  rw [applyHeuristics] at h
  obtain ⟨r, hr, rfl⟩ := List.mem_map.mp h
  have hrid : (if 2 ≤ (runRows rows2 r.check_run_node_id).length then
      match chosenFor prInfo cc rows2 r.check_run_node_id with
      | some c => if r = c then r else { r with pull_request_node_id := none }
      | none => { r with pull_request_node_id := none }
    else r).check_run_node_id = r.check_run_node_id :=
    applyHeuristics_rid_inv prInfo cc rows2 r
  rw [hrid] at hamb ⊢
  rcases applyHeuristics_apply_winner prInfo cc rows2 r hamb with h1 | ⟨h1, h2⟩
  · rw [h1] at hsome
    simp at hsome
  · rw [h2]
    exact h1

lemma authorMatch_isSome {prInfo : String → Option PRInfo} {r : CRow}
    (h : authorMatch prInfo r = true) : r.pull_request_node_id.isSome = true := by
  cases hp : r.pull_request_node_id with
  | some p => rfl
  | none =>
    rw [authorMatch, hp] at h
    have h2 : (false : Bool) = true := h
    exact Bool.noConfusion h2

lemma chosenFor_props {prInfo : String → Option PRInfo} {cc : String → Nat}
    {rows2 : List CRow} {rid : String} {c : CRow}
    (h : chosenFor prInfo cc rows2 rid = some c) :
    c ∈ runRows rows2 rid ∧ authorMatch prInfo c = true ∧
      ∀ q ∈ runRows rows2 rid, authorMatch prInfo q = true →
        commitCountOf cc c ≤ commitCountOf cc q ∧
        (commitCountOf cc q = commitCountOf cc c →
          prCreatedKey prInfo c ≤ prCreatedKey prInfo q) := by
  haveI hTot : IsTotal CRow
      (fun a b => prCreatedKey prInfo a ≤ prCreatedKey prInfo b) :=
    ⟨fun a b => le_total _ _⟩
  haveI hTr : IsTrans CRow
      (fun a b => prCreatedKey prInfo a ≤ prCreatedKey prInfo b) :=
    ⟨fun a b d h1 h2 => le_trans h1 h2⟩
  rw [chosenFor] at h
  obtain ⟨hmin, l1, l2, hsplit, hstrict⟩ := argminFirst_spec _ _ _ h
  have hperm : List.Perm (sortByCreated prInfo (runRows rows2 rid))
      (runRows rows2 rid) := List.perm_insertionSort _ _
  have hcF : c ∈ (sortByCreated prInfo (runRows rows2 rid)).filter
      (fun r => authorMatch prInfo r) := by
    rw [hsplit]
    exact List.mem_append.mpr (Or.inr (List.mem_cons_self _ _))
  obtain ⟨hcS, hcA⟩ := List.mem_filter.mp hcF
  refine ⟨hperm.mem_iff.mp hcS, hcA, ?_⟩
  intro q hq ham
  have hqL : q ∈ (sortByCreated prInfo (runRows rows2 rid)).filter
      (fun r => authorMatch prInfo r) :=
    List.mem_filter.mpr ⟨hperm.mem_iff.mpr hq, ham⟩
  refine ⟨hmin q hqL, ?_⟩
  intro heq
  have hsorted : List.Pairwise
      (fun a b => prCreatedKey prInfo a ≤ prCreatedKey prInfo b)
      ((sortByCreated prInfo (runRows rows2 rid)).filter
        (fun r => authorMatch prInfo r)) :=
    List.Pairwise.sublist (List.filter_sublist _)
      (List.sorted_insertionSort _ _)
  rw [hsplit] at hqL hsorted
  rcases List.mem_append.mp hqL with hq1 | hq2
  · exact absurd heq (by have := hstrict q hq1; omega)
  · rcases List.mem_cons.mp hq2 with rfl | hq3
    · exact le_refl _
    · have hp2 := (List.pairwise_append.mp hsorted).2.1
      exact (List.pairwise_cons.mp hp2).1 q hq3

lemma chosenFor_stays {prInfo : String → Option PRInfo} {cc : String → Nat}
    {rows2 : List CRow} {rid : String} {c : CRow}
    (h : chosenFor prInfo cc rows2 rid = some c)
    (hamb : 2 ≤ (runRows rows2 rid).length) :
    c ∈ applyHeuristics prInfo cc rows2 ∧ c ∈ rows2 ∧
      c.check_run_node_id = rid := by
  obtain ⟨hcR, hcA, -⟩ := chosenFor_props h
  obtain ⟨hc2, hcB⟩ := List.mem_filter.mp hcR
  have hcrid : c.check_run_node_id = rid := by simpa using hcB
  refine ⟨?_, hc2, hcrid⟩
  rw [applyHeuristics]
  refine List.mem_map.mpr ⟨c, hc2, ?_⟩
  show (if 2 ≤ (runRows rows2 c.check_run_node_id).length then
      match chosenFor prInfo cc rows2 c.check_run_node_id with
      | some c' => if c = c' then c else { c with pull_request_node_id := none }
      | none => { c with pull_request_node_id := none }
    else c) = c
  rw [hcrid, if_pos hamb, h]
  simp

lemma chosenFor_isSome {prInfo : String → Option PRInfo} {cc : String → Nat}
    {rows2 : List CRow} {rid : String} {q : CRow}
    (hq : q ∈ runRows rows2 rid) (ham : authorMatch prInfo q = true) :
    ∃ c, chosenFor prInfo cc rows2 rid = some c := by
  cases h : chosenFor prInfo cc rows2 rid with
  | some c => exact ⟨c, rfl⟩
  | none =>
    rw [chosenFor] at h
    have hnil := (argminFirst_eq_none_iff _ _).mp h
    have hperm : List.Perm (sortByCreated prInfo (runRows rows2 rid))
        (runRows rows2 rid) := List.perm_insertionSort _ _
    have hqL : q ∈ (sortByCreated prInfo (runRows rows2 rid)).filter
        (fun r => authorMatch prInfo r) :=
      List.mem_filter.mpr ⟨hperm.mem_iff.mpr hq, ham⟩
    rw [hnil] at hqL
    exact absurd hqL (List.not_mem_nil _)

/-- C2: check-run PR disambiguation.  Under the code's own assumption that PR
node ids sort below `"\x7b"` (`b"\x7b" > a-zA-Z0-9`), the disambiguated table
satisfies: (1) every surviving attribution passed the suite-start lifetime
test `[PR.created, PR.closed + 1h]`; (2) every output row is an input row,
possibly with its attribution removed; (3) every check run of the input is
kept exactly once; (4) for a run that still had several candidate rows after
the pair dedup, a surviving attributed row author-matches, is one of the
candidates, has the fewest commits among author-matching candidates, and the
earliest PR `created_at` among commit-count ties; (5) when an
author-matching candidate exists for such a run, the surviving row is
attributed. -/
theorem C2_disambiguate_check_runs (now : Int) (prInfo : String → Option PRInfo)
    (cc : String → Nat) (rows : List CRow)
    (hpid : ∀ r ∈ rows, r.pull_request_node_id.isSome = true →
      finalKey r.pull_request_node_id < "\x7b") :
    (∀ r' ∈ mineDisambiguate now prInfo cc rows, ∀ p,
      r'.pull_request_node_id = some p → lifetimeOk now prInfo r' = true) ∧
    (∀ r' ∈ mineDisambiguate now prInfo cc rows, ∃ r ∈ rows,
      r' = r ∨ r' = { r with pull_request_node_id := none }) ∧
    (∀ rid, (∃ r ∈ rows, r.check_run_node_id = rid) →
      ∃ u, runRows (mineDisambiguate now prInfo cc rows) rid = [u]) ∧
    (∀ r' ∈ mineDisambiguate now prInfo cc rows,
      2 ≤ (runRows (dropDuplicatePairs (dropOutsideLifetime now prInfo rows))
        r'.check_run_node_id).length →
      r'.pull_request_node_id.isSome = true →
      (authorMatch prInfo r' = true ∧
        r' ∈ runRows (dropDuplicatePairs (dropOutsideLifetime now prInfo rows))
          r'.check_run_node_id ∧
        ∀ q ∈ runRows (dropDuplicatePairs (dropOutsideLifetime now prInfo rows))
          r'.check_run_node_id, authorMatch prInfo q = true →
          commitCountOf cc r' ≤ commitCountOf cc q ∧
          (commitCountOf cc q = commitCountOf cc r' →
            prCreatedKey prInfo r' ≤ prCreatedKey prInfo q))) ∧
    (∀ r' ∈ mineDisambiguate now prInfo cc rows,
      2 ≤ (runRows (dropDuplicatePairs (dropOutsideLifetime now prInfo rows))
        r'.check_run_node_id).length →
      (∃ q ∈ runRows (dropDuplicatePairs (dropOutsideLifetime now prInfo rows))
        r'.check_run_node_id, authorMatch prInfo q = true) →
      r'.pull_request_node_id.isSome = true) := by
  have hg1 : ∀ r : CRow, ((if lifetimeOk now prInfo r then r
      else { r with pull_request_node_id := none }) : CRow).check_run_node_id =
      r.check_run_node_id := by
    intro r
    by_cases h : lifetimeOk now prInfo r = true
    · rw [if_pos h]
    · rw [if_neg h]
  have hmem12 : ∀ r2 ∈ dropDuplicatePairs (dropOutsideLifetime now prInfo rows),
      r2 ∈ dropOutsideLifetime now prInfo rows := by
    intro r2 h
    exact (dropDupPairsGo_sublist [] _).mem h
  have hlife2 : ∀ r2 ∈ dropDuplicatePairs (dropOutsideLifetime now prInfo rows),
      ∀ p, r2.pull_request_node_id = some p →
        lifetimeOk now prInfo r2 = true :=
    fun r2 h => dropOutside_lifetime (hmem12 r2 h)
  have hshape2 : ∀ r2 ∈ dropDuplicatePairs (dropOutsideLifetime now prInfo rows),
      ∃ r ∈ rows, r2 = r ∨ r2 = { r with pull_request_node_id := none } :=
    fun r2 h => mem_dropOutside (hmem12 r2 h)
  have hlife3 : ∀ r' ∈ applyHeuristics prInfo cc
      (dropDuplicatePairs (dropOutsideLifetime now prInfo rows)),
      ∀ p, r'.pull_request_node_id = some p →
        lifetimeOk now prInfo r' = true := by
    intro r' h p hp
    obtain ⟨r2, hr2, hca⟩ := applyHeuristics_shape h
    rcases hca with rfl | rfl
    · exact hlife2 _ hr2 p hp
    · exact absurd hp (by simp)
  have hshape3 : ∀ r' ∈ applyHeuristics prInfo cc
      (dropDuplicatePairs (dropOutsideLifetime now prInfo rows)),
      ∃ r ∈ rows, r' = r ∨ r' = { r with pull_request_node_id := none } := by
    intro r' h
    obtain ⟨r2, hr2, hca⟩ := applyHeuristics_shape h
    obtain ⟨r, hr, hcb⟩ := hshape2 r2 hr2
    rcases hca with rfl | rfl
    · exact ⟨r, hr, hcb⟩
    · rcases hcb with rfl | rfl
      · exact ⟨r2, hr, Or.inr rfl⟩
      · exact ⟨r, hr, Or.inr rfl⟩
  have hsurv1 : ∀ rid, (∃ r ∈ rows, r.check_run_node_id = rid) →
      ∃ r1 ∈ dropOutsideLifetime now prInfo rows,
        r1.check_run_node_id = rid := by
    intro rid hex
    obtain ⟨r, hr, hrid⟩ := hex
    rw [dropOutsideLifetime]
    exact ⟨_, List.mem_map_of_mem _ hr, (hg1 r).trans hrid⟩
  have hsurv2 : ∀ rid, (∃ r ∈ rows, r.check_run_node_id = rid) →
      ∃ r2 ∈ dropDuplicatePairs (dropOutsideLifetime now prInfo rows),
        r2.check_run_node_id = rid := by
    intro rid hex
    exact dropDupPairsGo_keeps rid _ []
      (by intro s hs; exact absurd hs (List.not_mem_nil _)) (hsurv1 rid hex)
  by_cases hguard : (hasAmbiguity rows && hasAmbiguity
      (dropDuplicatePairs (dropOutsideLifetime now prInfo rows))) = true
  · have hout : mineDisambiguate now prInfo cc rows =
        keepFirstMinKey (applyHeuristics prInfo cc
          (dropDuplicatePairs (dropOutsideLifetime now prInfo rows))) := by
      simp only [mineDisambiguate]
      rw [if_pos hguard]
    rw [hout]
    refine ⟨?_, ?_, ?_, ?_, ?_⟩
    · intro r' h p hp
      exact hlife3 r' (keepFirst_subset h) p hp
    · intro r' h
      exact hshape3 r' (keepFirst_subset h)
    · intro rid hex
      obtain ⟨r2, hr2, hrid2⟩ := hsurv2 rid hex
      refine keepFirst_group _ rid ?_
      rw [applyHeuristics]
      exact ⟨_, List.mem_map_of_mem _ hr2,
        (applyHeuristics_rid_inv prInfo cc _ r2).trans hrid2⟩
    · intro r' h hamb hsome
      have h3 := keepFirst_subset h
      have hw := applyHeuristics_winner h3 hamb hsome
      obtain ⟨hcR, hcA, hmin⟩ := chosenFor_props hw
      exact ⟨hcA, hcR, hmin⟩
    · intro r' h hamb hex
      obtain ⟨q, hq, ham⟩ := hex
      obtain ⟨c, hc⟩ := @chosenFor_isSome prInfo cc
        (dropDuplicatePairs (dropOutsideLifetime now prInfo rows))
        r'.check_run_node_id q hq ham
      obtain ⟨hcIn3, hcIn2, hcrid⟩ := chosenFor_stays hc hamb
      obtain ⟨-, hcA, -⟩ := chosenFor_props hc
      have hcSome : c.pull_request_node_id.isSome = true := authorMatch_isSome hcA
      have hkey : finalKey c.pull_request_node_id < "\x7b" := by
        obtain ⟨r0, hr0, hcb⟩ := hshape2 c hcIn2
        rcases hcb with rfl | rfl
        · exact hpid _ hr0 hcSome
        · exact absurd hcSome (by simp)
      rw [keepFirstMinKey] at h
      obtain ⟨iq, hiqf, hiq2⟩ := List.mem_map.mp h
      have hiq2' : iq.2 = r' := hiq2
      obtain ⟨hiqe, hiqc⟩ := List.mem_filter.mp hiqf
      have hcond := of_decide_eq_true hiqc
      obtain ⟨j, hj⟩ := exists_enum_of_mem hcIn3
      have hle := (hcond (j, c) hj (by rw [hiq2']; exact hcrid)).1
      by_contra hns
      have hnone : r'.pull_request_node_id = none := by
        cases hpr : r'.pull_request_node_id with
        | none => rfl
        | some p => rw [hpr] at hns; simp at hns
      rw [hiq2', hnone] at hle
      have hle2 : ("\x7b" : String) ≤ finalKey c.pull_request_node_id := hle
      exact absurd (lt_of_le_of_lt hle2 hkey) (lt_irrefl _)
  · have hout : mineDisambiguate now prInfo cc rows =
        dropDuplicatePairs (dropOutsideLifetime now prInfo rows) := by
      simp only [mineDisambiguate]
      rw [if_neg hguard]
    rw [hout]
    have hnoamb : hasAmbiguity
        (dropDuplicatePairs (dropOutsideLifetime now prInfo rows)) = false := by
      cases hh : hasAmbiguity
          (dropDuplicatePairs (dropOutsideLifetime now prInfo rows)) with
      | false => rfl
      | true => exact absurd (by rw [hasAmbiguity_trans hh, hh]; rfl) hguard
    refine ⟨hlife2, hshape2, ?_, ?_, ?_⟩
    · intro rid hex
      obtain ⟨r2, hr2, hrid2⟩ := hsurv2 rid hex
      have hmem : r2 ∈ runRows
          (dropDuplicatePairs (dropOutsideLifetime now prInfo rows)) rid :=
        List.mem_filter.mpr ⟨hr2, by simp [hrid2]⟩
      have hle : ¬ 2 ≤ (runRows
          (dropDuplicatePairs (dropOutsideLifetime now prInfo rows)) rid).length := by
        intro h2
        have hpos : 0 < (runRows
            (dropDuplicatePairs (dropOutsideLifetime now prInfo rows)) rid).length := by
          omega
        obtain ⟨w, hw⟩ := List.exists_mem_of_length_pos hpos
        obtain ⟨hw2, hwb⟩ := List.mem_filter.mp hw
        have hwrid : w.check_run_node_id = rid := by simpa using hwb
        have hamb2 : hasAmbiguity
            (dropDuplicatePairs (dropOutsideLifetime now prInfo rows)) = true := by
          rw [hasAmbiguity, List.any_eq_true]
          refine ⟨w, hw2, ?_⟩
          rw [hwrid]
          exact decide_eq_true h2
        rw [hamb2] at hnoamb
        exact Bool.noConfusion hnoamb
      have hlen1 : (runRows
          (dropDuplicatePairs (dropOutsideLifetime now prInfo rows)) rid).length = 1 := by
        have hpos := List.length_pos_of_mem hmem
        omega
      exact List.length_eq_one.mp hlen1
    · intro r' h hamb hsome
      exfalso
      have hamb2 : hasAmbiguity
          (dropDuplicatePairs (dropOutsideLifetime now prInfo rows)) = true := by
        rw [hasAmbiguity, List.any_eq_true]
        exact ⟨r', h, decide_eq_true hamb⟩
      rw [hamb2] at hnoamb
      exact Bool.noConfusion hnoamb
    · intro r' h hamb hex
      exfalso
      have hamb2 : hasAmbiguity
          (dropDuplicatePairs (dropOutsideLifetime now prInfo rows)) = true := by
        rw [hasAmbiguity, List.any_eq_true]
        exact ⟨r', h, decide_eq_true hamb⟩
      rw [hamb2] at hnoamb
      exact Bool.noConfusion hnoamb

/-- Two candidate PRs for one check run: A with 2 commits, B with 10, both by
the commit author. -/
def c2prInfo : String → Option PRInfo := fun p =>
  if p == "A" then some { author := some "x", created_at := 100, closed_at := some 1000 }
  else if p == "B" then some { author := some "x", created_at := 50, closed_at := some 1000 }
  else none

def c2cc : String → Nat := fun p => if p == "A" then 2 else if p == "B" then 10 else 0

def c2rowA : CRow :=
  { check_run_node_id := "r1", check_suite_node_id := "s",
    pull_request_node_id := some "A", author_user := some "x", url := "u",
    name := "run", status := "COMPLETED", conclusion := "SUCCESS",
    check_suite_conclusion := "", started_at := 200, completed_at := some 300,
    check_suite_started := 200 }

def c2rowB : CRow := { c2rowA with pull_request_node_id := some "B" }

/-- Witness: the ambiguous check run `r1` (candidates A and B) is kept
exactly once after disambiguation. -/
theorem C2_disambiguate_check_runs_witness :
    ∃ u, runRows (mineDisambiguate 0 c2prInfo c2cc [c2rowA, c2rowB]) "r1" = [u] := by
  have hpid : ∀ r ∈ [c2rowA, c2rowB], r.pull_request_node_id.isSome = true →
      finalKey r.pull_request_node_id < "\x7b" := by
    intro r hr _
    simp only [List.mem_cons, List.not_mem_nil, or_false] at hr
    rcases hr with rfl | rfl
    · show ("A" : String) < "\x7b"
      rw [String.lt_iff_toList_lt]
      decide
    · show ("B" : String) < "\x7b"
      rw [String.lt_iff_toList_lt]
      decide
  obtain ⟨-, -, h3, -, -⟩ := C2_disambiguate_check_runs 0 c2prInfo c2cc
    [c2rowA, c2rowB] hpid
  exact h3 "r1" ⟨c2rowA, List.mem_cons_self _ _, rfl⟩

end Athenian
